import Mathlib

/-!
# Verification of the CyberChef Enigma machine core (`src/core/lib/Enigma.mjs`)

This file is a shallow embedding of the Enigma-machine core of the repository:
the letter codec (`a2i` / `i2a`), the `Rotor` class (construction, stepping and
the two signal transforms), the `PairMapBase` shared by `Plugboard` and
`Reflector`, and the `EnigmaBase`/`EnigmaMachine` stepping algorithm and
per-character `crypt` pipeline.

JavaScript features are embedded as follows:
* thrown `OperationError`s become `Option.none` results of the constructors;
* JS objects keyed by letter indices become association lists with unique keys
  (`objGet` / `objSet` / `objHas`); a JS `Set` becomes a duplicate-free list
  built with `setAdd`;
* machine integers are `Int` (JS numbers are exact on this range);
* strings are `List Char`.
-/

namespace Enigma

/-- Modelled from the spec: `Utils.mod` (not under `src/`), the
positive-remainder modulo used to keep rotor positions "normalized modulo 26":
`((x % y) + y) % y` on JS numbers. -/
def jsmod (x y : Int) : Int := (x % y + y) % y

/-- The test `65 <= ord c <= 90` used by the `[A-Z]` regex checks and `a2i`. -/
def isUpper (c : Char) : Bool := 65 ≤ c.toNat && c.toNat ≤ 90

/-- A character of the JS `\s` class (ASCII portion), as used by the
`split(/\s+/)` in `PairMapBase`. -/
def isWS (c : Char) : Bool :=
  c = ' ' || c = '\t' || c = '\n' || c = '\r' || c = '\x0b' || c = '\x0c'

/-- Strict `a2i(c)` (with `permissive = false`): maps `A`..`Z` to `0..25` and throws
(`none`) on anything else. -/
def a2i (c : Char) : Option Int :=
  if 65 ≤ c.toNat && c.toNat ≤ 90 then some ((c.toNat : Int) - 65) else none

/-- Permissive `a2i(c, true)`: case insensitive, returns the sentinel
`-1` instead of throwing on non-letters.  This branch of the source never
throws, so it is a total function. -/
def a2iPerm (c : Char) : Int :=
  if 65 ≤ c.toNat && c.toNat ≤ 90 then (c.toNat : Int) - 65
  else if 97 ≤ c.toNat && c.toNat ≤ 122 then (c.toNat : Int) - 97
  else -1

/-- The map `i2a(i)`: maps `0..25` back to `A`..`Z` and throws (`none`) outside that
range. -/
def i2a (i : Int) : Option Char :=
  if 0 ≤ i && i < 26 then some (Char.ofNat (i + 65).toNat) else none

/-! ## JS objects as association lists -/

/-- Lookup in a JS object keyed by letter index (`m[k]`, `none` = `undefined`). -/
def objGet (m : List (Int × Int)) (k : Int) : Option Int :=
  (m.find? (fun p => p.1 == k)).map Prod.snd

/-- The JS `k in m` test. -/
def objHas (m : List (Int × Int)) (k : Int) : Bool :=
  m.any (fun p => p.1 == k)

/-- The JS assignment `m[k] = v`: overwrite the existing key or add a new one. -/
def objSet (m : List (Int × Int)) (k v : Int) : List (Int × Int) :=
  if objHas m k then m.map (fun p => if p.1 == k then (k, v) else p)
  else m ++ [(k, v)]

/-- JS `Set.prototype.add`: insertion-ordered, duplicate-free. -/
def setAdd (s : List Int) (x : Int) : List Int := if x ∈ s then s else s ++ [x]

/-! ## Rotor -/

/-- A `Rotor`: forward wiring `mapL` (image of letter `i` at index `i`),
reverse wiring `revMap` (a JS object keyed by wiring images), the ring-shifted
notch set `steps`, and the mutable rotational `pos`. -/
structure Rotor where
  mapL : List Int
  revMap : List (Int × Int)
  steps : List Int
  pos : Int
deriving DecidableEq, Repr

/-- The `revMap`-building half of the wiring loop:
`this.revMap[b] = a` for `a = 0..25`, `b = a2i(wiring[a])` in order. -/
def buildRevAux : Nat → List Int → List (Int × Int) → List (Int × Int)
  | _, [], m => m
  | i, b :: bs, m => buildRevAux (i + 1) bs (objSet m b (Int.ofNat i))

def buildRevMap (vals : List Int) : List (Int × Int) := buildRevAux 0 vals []

/-- The `Rotor` constructor.  `none` models a thrown `OperationError`.
The four regex validations come first; then the wiring maps are built and the
`revMap` key count checks that the wiring is a bijection; then the notch set is
built ring-shifted and checked for duplicates; finally the initial position is
ring-shifted.  (All `a2i` calls after the regex checks are on validated
uppercase letters, hence the `some` arms are the live ones.) -/
def mkRotor (wiring steps ringSetting initialPosition : List Char) : Option Rotor :=
  if wiring.length = 26 ∧ wiring.all isUpper then
    if steps.length ≤ 26 ∧ steps.all isUpper then
      if ringSetting.length = 1 ∧ ringSetting.all isUpper then
        if initialPosition.length = 1 ∧ initialPosition.all isUpper then
          (wiring.mapM a2i).bind fun mapL =>
            if (buildRevMap mapL).length = 26 then
              (a2i (ringSetting.headD 'A')).bind fun rs =>
                (steps.mapM a2i).bind fun stepIdxs =>
                  if (stepIdxs.foldl (fun s x => setAdd s (jsmod (x - rs) 26)) []).length
                      = steps.length then
                    (a2i (initialPosition.headD 'A')).bind fun ip =>
                      some ⟨mapL, buildRevMap mapL,
                        stepIdxs.foldl (fun s x => setAdd s (jsmod (x - rs) 26)) [],
                        jsmod (ip - rs) 26⟩
                  else none
            else none
        else none
      else none
    else none
  else none

/-- The method `Rotor.step()`: advance the position by one, normalized modulo 26. -/
def stepRotor (r : Rotor) : Rotor := { r with pos := jsmod (r.pos + 1) 26 }

/-- The method `Rotor.transform(c)`: `mod(map[mod(c + pos, 26)] - pos, 26)`.  The index is
always in `0..25` (a `jsmod _ 26`), so the `getD` default is never used. -/
def Rotor.transform (r : Rotor) (c : Int) : Int :=
  jsmod (r.mapL.getD (jsmod (c + r.pos) 26).toNat 0 - r.pos) 26

/-- The method `Rotor.revTransform(c)`: the same shape through `revMap`.  For a validly
constructed rotor `revMap` has every key in `0..25`, so the `getD` default is
never used. -/
def Rotor.revTransform (r : Rotor) (c : Int) : Int :=
  jsmod ((objGet r.revMap (jsmod (c + r.pos) 26)).getD 0 - r.pos) 26

/-! ## PairMapBase / Reflector / Plugboard -/

/-- A `PairMapBase` (the shared representation of `Plugboard` and
`Reflector`): the symmetric pair map as a JS object. -/
structure PairMap where
  map : List (Int × Int)
deriving DecidableEq, Repr

/-- The method `PairMapBase.transform(c)`: the paired letter if mapped, else `c`. -/
def PairMap.transform (p : PairMap) (c : Int) : Int :=
  match objGet p.map c with
  | none => c
  | some v => v

/-- The method `PairMapBase.revTransform(c)`: alias for `transform`. -/
def PairMap.revTransform (p : PairMap) (c : Int) : Int := p.transform c

/-- Split on runs of whitespace like JS `split(/\s+/)`: leading or trailing
whitespace contributes an empty token, interior runs separate tokens. -/
def splitWS : List Char → List (List Char)
  | [] => [[]]
  | c :: rest =>
    let toks := splitWS rest
    if isWS c then
      match rest with
      | r :: _ => if isWS r then toks else [] :: toks
      | [] => [] :: toks
    else
      match toks with
      | [] => [[c]]
      | t :: ts => (c :: t) :: ts

/-- The body of the `forEach` in the `PairMapBase` constructor, processing one
whitespace-separated token against the map built so far. -/
def pairStep (m : List (Int × Int)) (pair : List Char) : Option (List (Int × Int)) :=
  if pair.length = 2 ∧ pair.all isUpper then
    (a2i (pair.headD 'A')).bind fun a =>
      (a2i (pair.getD 1 'A')).bind fun b =>
        if a = b then none
        else if objHas m a then none
        else if objHas m b then none
        else some (objSet (objSet m a b) b a)
  else none

/-- The `PairMapBase` constructor: empty string means no pairs, otherwise each
token must be two distinct fresh uppercase letters. -/
def mkPairMapBase (pairs : List Char) : Option PairMap :=
  if pairs = [] then some ⟨[]⟩
  else ((splitWS pairs).foldlM pairStep []).map PairMap.mk

/-- The `Plugboard` constructor: an unmodified `PairMapBase`. -/
def mkPlugboard (pairs : List Char) : Option PairMap := mkPairMapBase pairs

/-- The `Reflector` constructor: a `PairMapBase` whose 26 keys cover every
letter. -/
def mkReflector (pairs : List Char) : Option PairMap :=
  (mkPairMapBase pairs).bind fun p => if p.map.length = 26 then some p else none

/-! ## EnigmaMachine -/

/-- The machine: rotors (index 0 = rightmost/fastest), reflector, plugboard.
The source also stores `rotorsRev`, an aliased reversed copy; since stepping
mutates the shared rotor objects, this is `rotors.reverse` of the *current*
rotors, which is how `crypt` below uses it. -/
structure EnigmaMachine where
  rotors : List Rotor
  reflector : PairMap
  plugboard : PairMap
deriving DecidableEq, Repr

/-- The `EnigmaMachine` constructor: 3 or 4 rotors. -/
def mkEnigmaMachine (rotors : List Rotor) (reflector plugboard : PairMap) :
    Option EnigmaMachine :=
  if rotors.length = 3 ∨ rotors.length = 4 then some ⟨rotors, reflector, plugboard⟩
  else none

/-- The method `EnigmaBase.step()` on the rotor list.  Rotor 0 always steps; rotor 1
steps on rotor 0's new notch position or on its own coming notch position (the
double-stepping anomaly); rotor 2 steps when rotor 1 stepped onto a notch.
A 4th rotor is never touched.  (The source reads `rotors[2]` only in that
innermost branch; a machine always has at least 3 rotors.) -/
def stepRotors : List Rotor → List Rotor
  | r0 :: r1 :: r2 :: rest =>
    if (stepRotor r0).steps.contains (stepRotor r0).pos
        || r1.steps.contains (jsmod (r1.pos + 1) 26) then
      if (stepRotor r1).steps.contains (stepRotor r1).pos then
        stepRotor r0 :: stepRotor r1 :: stepRotor r2 :: rest
      else stepRotor r0 :: stepRotor r1 :: r2 :: rest
    else stepRotor r0 :: r1 :: r2 :: rest
  | [r0, r1] =>
    -- with only two rotors the source reads `rotors[2]` (undefined) in the
    -- innermost branch and would throw; a machine always has 3 or 4 rotors,
    -- so that branch is unreachable and the other two are as above
    if (stepRotor r0).steps.contains (stepRotor r0).pos
        || r1.steps.contains (jsmod (r1.pos + 1) 26) then
      [stepRotor r0, stepRotor r1]
    else [stepRotor r0, r1]
  | rs => rs

def EnigmaMachine.step (m : EnigmaMachine) : EnigmaMachine :=
  { m with rotors := stepRotors m.rotors }

/-- The per-letter signal path of `crypt`: plugboard, forward through the
rotors in order, reflector, backward through the reversed rotors, plugboard
again (`revTransform`, the alias). -/
def cryptLetter (m : EnigmaMachine) (letter : Int) : Int :=
  let l1 := m.plugboard.transform letter
  let l2 := m.rotors.foldl (fun l r => r.transform l) l1
  let l3 := m.reflector.transform l2
  let l4 := m.rotors.reverse.foldl (fun l r => r.revTransform l) l3
  m.plugboard.revTransform l4

/-- The method `EnigmaBase.crypt(input)`: non-letters are emitted unchanged without
stepping; for a letter the machine steps first and then the letter runs
through the signal path.  `none` models the (defensive, unreachable for valid
machines) `i2a` throw. -/
def crypt (m : EnigmaMachine) : List Char → Option (List Char × EnigmaMachine)
  | [] => some ([], m)
  | l :: rest =>
    if a2iPerm l = -1 then
      (crypt m rest).bind fun om => some (l :: om.1, om.2)
    else
      (i2a (cryptLetter m.step (a2iPerm l))).bind fun ch =>
        (crypt m.step rest).bind fun om => some (ch :: om.1, om.2)

/-- The expected result of a decrypt-after-encrypt round trip on one
character: letters come back uppercased, everything else verbatim. -/
def upperNorm (c : Char) : Char := (i2a (a2iPerm c)).getD c

/-! ## Arithmetic facts about `jsmod` -/

theorem jsmod_eq (x : Int) : jsmod x 26 = x % 26 := by unfold jsmod; omega

theorem jsmod_nonneg (x : Int) : 0 ≤ jsmod x 26 := by rw [jsmod_eq]; omega

theorem jsmod_lt (x : Int) : jsmod x 26 < 26 := by rw [jsmod_eq]; omega

theorem jsmod_of_range (x : Int) (h0 : 0 ≤ x) (h1 : x < 26) : jsmod x 26 = x := by
  rw [jsmod_eq]; omega

/-! ## Facts about the JS-object association lists -/

/-- The keys of a JS object. -/
def keys (m : List (Int × Int)) : List Int := m.map Prod.fst

theorem objHas_iff {m : List (Int × Int)} {k : Int} : objHas m k = true ↔ k ∈ keys m := by
  unfold objHas keys
  rw [List.any_eq_true]
  simp only [List.mem_map, beq_iff_eq]

theorem objGet_cons (p : Int × Int) (rest : List (Int × Int)) (k : Int) :
    objGet (p :: rest) k = if p.1 = k then some p.2 else objGet rest k := by
  by_cases h : p.1 = k <;> simp [objGet, List.find?_cons, h]

theorem objHas_cons (p : Int × Int) (rest : List (Int × Int)) (k : Int) :
    objHas (p :: rest) k = true ↔ (p.1 = k ∨ objHas rest k = true) := by
  simp [objHas, List.any_cons]

theorem objGet_eq_none {m : List (Int × Int)} {k : Int} (h : objHas m k = false) :
    objGet m k = none := by
  induction m with
  | nil => rfl
  | cons p rest ih =>
    have h' : ¬ (p.1 = k ∨ objHas rest k = true) := by
      rw [← objHas_cons]; simp [h]
    push_neg at h'
    rw [objGet_cons, if_neg h'.1]
    exact ih (by simpa using h'.2)

theorem objGet_mem {m : List (Int × Int)} {k v : Int} (h : objGet m k = some v) :
    (k, v) ∈ m := by
  induction m with
  | nil => simp [objGet] at h
  | cons p rest ih =>
    rw [objGet_cons] at h
    by_cases he : p.1 = k
    · rw [if_pos he] at h
      have hv : p.2 = v := by injection h
      refine List.mem_cons.2 (Or.inl ?_)
      obtain ⟨a, b⟩ := p
      simp only at he hv
      rw [← he, ← hv]
    · rw [if_neg he] at h
      exact List.mem_cons_of_mem _ (ih h)

theorem objGet_isSome_of_has {m : List (Int × Int)} {k : Int} (h : objHas m k = true) :
    ∃ v, objGet m k = some v := by
  induction m with
  | nil => simp [objHas] at h
  | cons p rest ih =>
    rw [objGet_cons]
    by_cases he : p.1 = k
    · exact ⟨p.2, by rw [if_pos he]⟩
    · rcases (objHas_cons p rest k).1 h with h' | h'
      · exact absurd h' he
      · obtain ⟨v, hv⟩ := ih h'
        exact ⟨v, by rw [if_neg he]; exact hv⟩

theorem objGet_of_mem_nodup {m : List (Int × Int)} {k v : Int}
    (hnd : (keys m).Nodup) (hmem : (k, v) ∈ m) : objGet m k = some v := by
  induction m with
  | nil => simp at hmem
  | cons p rest ih =>
    simp only [keys, List.map_cons, List.nodup_cons] at hnd
    rw [objGet_cons]
    rcases List.mem_cons.1 hmem with h | h
    · rw [if_pos (by rw [← h]), ← h]
    · have hk : ¬ p.1 = k := by
        intro he
        apply hnd.1
        rw [he]
        exact List.mem_map_of_mem Prod.fst h
      rw [if_neg hk]
      exact ih hnd.2 h

theorem objSet_of_not_has {m : List (Int × Int)} {k : Int} (v : Int)
    (h : objHas m k = false) : objSet m k v = m ++ [(k, v)] := by
  simp [objSet, h]

theorem keys_objSet_of_has {m : List (Int × Int)} {k : Int} (v : Int)
    (h : objHas m k = true) : keys (objSet m k v) = keys m := by
  simp only [objSet, h, if_true, keys, List.map_map]
  apply List.map_congr_left
  intro p _
  by_cases he : p.1 = k
  · simp [Function.comp, he]
  · simp [Function.comp, he]

theorem mem_keys_objSet (m : List (Int × Int)) (k v x : Int) :
    x ∈ keys (objSet m k v) ↔ (x ∈ keys m ∨ x = k) := by
  by_cases h : objHas m k = true
  · rw [keys_objSet_of_has v h]
    have hk : k ∈ keys m := objHas_iff.1 h
    constructor
    · exact Or.inl
    · rintro (hx | rfl)
      · exact hx
      · exact hk
  · rw [objSet_of_not_has v (by simpa using h)]
    simp [keys]

theorem keys_objSet_nodup {m : List (Int × Int)} {k : Int} (v : Int)
    (h : (keys m).Nodup) : (keys (objSet m k v)).Nodup := by
  by_cases hh : objHas m k = true
  · rw [keys_objSet_of_has v hh]; exact h
  · rw [objSet_of_not_has v (by simpa using hh)]
    simp only [keys, List.map_append, List.map_cons, List.map_nil]
    rw [List.nodup_append]
    refine ⟨h, List.nodup_singleton _, ?_⟩
    intro x hx
    simp only [List.mem_singleton]
    intro he
    subst he
    exact (by simpa [objHas_iff] using hh : x ∉ keys m) hx

theorem length_objSet (m : List (Int × Int)) (k v : Int) :
    (objSet m k v).length = if objHas m k = true then m.length else m.length + 1 := by
  by_cases h : objHas m k = true
  · simp [objSet, h]
  · rw [objSet_of_not_has v (by simpa using h)]
    simp [h]

theorem objGet_map_objSetFn (m : List (Int × Int)) (k v k' : Int) (hne : k' ≠ k) :
    objGet (m.map (fun p => if p.1 == k then (k, v) else p)) k' = objGet m k' := by
  induction m with
  | nil => rfl
  | cons p rest ih =>
    rw [List.map_cons]
    by_cases he : p.1 = k
    · have h1 : ¬ ((if p.1 == k then (k, v) else p).1 = k') := by
        simp only [he, beq_self_eq_true, if_true]
        exact fun hh => hne hh.symm
      have h2 : ¬ (p.1 = k') := by
        rw [he]; exact fun hh => hne hh.symm
      rw [objGet_cons, if_neg h1, objGet_cons, if_neg h2]
      exact ih
    · have hfix : (if p.1 == k then (k, v) else p) = p := by
        simp [he]
      rw [hfix, objGet_cons, objGet_cons, ih]

theorem objGet_objSet_self (m : List (Int × Int)) (k v : Int) :
    objGet (objSet m k v) k = some v := by
  by_cases h : objHas m k = true
  · simp only [objSet, h, if_true]
    induction m with
    | nil => simp [objHas] at h
    | cons p rest ih =>
      rw [List.map_cons]
      by_cases he : p.1 = k
      · have : (if p.1 == k then (k, v) else p) = (k, v) := by simp [he]
        rw [this, objGet_cons, if_pos rfl]
      · have : (if p.1 == k then (k, v) else p) = p := by simp [he]
        rw [this, objGet_cons, if_neg he]
        rcases (objHas_cons p rest k).1 h with h' | h'
        · exact absurd h' he
        · exact ih h'
  · rw [objSet_of_not_has v (by simpa using h)]
    induction m with
    | nil => simp [objGet_cons]
    | cons p rest ih =>
      have h' : ¬ (p.1 = k ∨ objHas rest k = true) := by
        rw [← objHas_cons]; simp [h]
      push_neg at h'
      rw [List.cons_append, objGet_cons, if_neg h'.1]
      exact ih (by simpa using h'.2)

theorem objGet_objSet_other {m : List (Int × Int)} {k k' : Int} (v : Int)
    (hne : k' ≠ k) : objGet (objSet m k v) k' = objGet m k' := by
  by_cases h : objHas m k = true
  · simp only [objSet, h, if_true]
    exact objGet_map_objSetFn m k v k' hne
  · rw [objSet_of_not_has v (by simpa using h)]
    induction m with
    | nil => simp [objGet_cons, objGet, Ne.symm hne]
    | cons p rest ih =>
      rw [List.cons_append, objGet_cons, objGet_cons]
      by_cases he : p.1 = k'
      · rw [if_pos he, if_pos he]
      · rw [if_neg he, if_neg he]
        exact ih (fun hh => h ((objHas_cons p rest k).2 (Or.inr hh)))

theorem objHas_objSet (m : List (Int × Int)) (k v k' : Int) :
    objHas (objSet m k v) k' = true ↔ (objHas m k' = true ∨ k' = k) := by
  rw [objHas_iff, objHas_iff, mem_keys_objSet]

theorem length_keys (m : List (Int × Int)) : (keys m).length = m.length := by
  simp [keys]

/-! ## Facts about `buildRevMap` -/

theorem keys_buildRevAux_nodup : ∀ (bs : List Int) (i : Nat) (m : List (Int × Int)),
    (keys m).Nodup → (keys (buildRevAux i bs m)).Nodup
  | [], _, _, h => h
  | b :: bs, i, m, h => keys_buildRevAux_nodup bs (i + 1) _ (keys_objSet_nodup _ h)

theorem mem_keys_buildRevAux (bs : List Int) (i : Nat) (m : List (Int × Int)) (x : Int) :
    x ∈ keys (buildRevAux i bs m) ↔ (x ∈ keys m ∨ x ∈ bs) := by
  induction bs generalizing i m with
  | nil => simp [buildRevAux]
  | cons b bs ih =>
    simp only [buildRevAux]
    rw [ih, mem_keys_objSet]
    simp only [List.mem_cons]
    tauto

theorem length_buildRevAux (bs : List Int) (i : Nat) (m : List (Int × Int))
    (h : (keys m).Nodup) :
    (buildRevAux i bs m).length = (keys m ++ bs).toFinset.card := by
  have hnd := keys_buildRevAux_nodup bs i m h
  have hext : (keys (buildRevAux i bs m)).toFinset = (keys m ++ bs).toFinset := by
    ext x
    simp [List.mem_toFinset, mem_keys_buildRevAux]
  calc (buildRevAux i bs m).length
      = (keys (buildRevAux i bs m)).length := (length_keys _).symm
    _ = (keys (buildRevAux i bs m)).toFinset.card := (List.toFinset_card_of_nodup hnd).symm
    _ = (keys m ++ bs).toFinset.card := by rw [hext]

theorem length_buildRevMap (vals : List Int) :
    (buildRevMap vals).length = vals.dedup.length := by
  rw [buildRevMap, length_buildRevAux _ _ _ (by simp [keys])]
  simp [keys, List.card_toFinset]

theorem nodup_of_buildRevMap_length {vals : List Int}
    (h : (buildRevMap vals).length = vals.length) : vals.Nodup := by
  rw [length_buildRevMap] at h
  rw [← List.dedup_eq_self]
  exact (List.dedup_sublist vals).eq_of_length h

theorem objGet_buildRevAux_of_not_mem (bs : List Int) (i : Nat) (m : List (Int × Int))
    (k : Int) (hk : k ∉ bs) : objGet (buildRevAux i bs m) k = objGet m k := by
  induction bs generalizing i m with
  | nil => rfl
  | cons b bs ih =>
    simp only [buildRevAux]
    rw [ih _ _ (fun h => hk (List.mem_cons_of_mem _ h))]
    exact objGet_objSet_other _ (fun he => hk (by rw [he]; exact List.mem_cons_self b bs))

theorem objGet_buildRevAux (bs : List Int) (i : Nat) (m : List (Int × Int))
    (hnd : bs.Nodup) (j : Nat) (hj : j < bs.length) :
    objGet (buildRevAux i bs m) (bs.getD j 0) = some (Int.ofNat (i + j)) := by
  induction bs generalizing i m j with
  | nil => simp at hj
  | cons b bs ih =>
    simp only [buildRevAux]
    rcases j with _ | j
    · rw [List.getD_cons_zero]
      rw [objGet_buildRevAux_of_not_mem bs (i + 1) _ b (List.nodup_cons.1 hnd).1]
      rw [objGet_objSet_self]
      simp
    · rw [List.getD_cons_succ]
      rw [ih (i + 1) (objSet m b (Int.ofNat i)) (List.nodup_cons.1 hnd).2 j (by simpa using hj)]
      congr 2
      omega

theorem objGet_buildRevMap {vals : List Int} (hnd : vals.Nodup) (j : Nat)
    (hj : j < vals.length) :
    objGet (buildRevMap vals) (vals.getD j 0) = some (Int.ofNat j) := by
  simpa using objGet_buildRevAux vals 0 [] hnd j hj

/-! ## Facts about the letter codec -/

theorem a2i_of_isUpper {c : Char} (h : isUpper c = true) :
    a2i c = some ((c.toNat : Int) - 65) := by
  simp only [isUpper, Bool.and_eq_true, decide_eq_true_eq] at h
  simp [a2i, h.1, h.2]

theorem a2i_bounds {c : Char} {v : Int} (h : a2i c = some v) : 0 ≤ v ∧ v < 26 := by
  unfold a2i at h
  by_cases hc : (65 ≤ c.toNat && c.toNat ≤ 90) = true
  · rw [if_pos hc] at h
    simp only [Bool.and_eq_true, decide_eq_true_eq] at hc
    injection h with h
    omega
  · rw [if_neg hc] at h; cases h

theorem mapM_a2i_of_all_upper {w : List Char} (h : w.all isUpper = true) :
    w.mapM a2i = some (w.map (fun c => (c.toNat : Int) - 65)) := by
  induction w with
  | nil => rfl
  | cons c cs ih =>
    simp only [List.all_cons, Bool.and_eq_true] at h
    rw [List.map_cons, List.mapM_cons, a2i_of_isUpper h.1, ih h.2]
    rfl

theorem a2iPerm_bounds {c : Char} (h : ¬ a2iPerm c = -1) :
    0 ≤ a2iPerm c ∧ a2iPerm c < 26 := by
  unfold a2iPerm at h ⊢
  by_cases h1 : (65 ≤ c.toNat && c.toNat ≤ 90) = true
  · simp only [Bool.and_eq_true, decide_eq_true_eq] at h1
    rw [if_pos (by simp [h1.1, h1.2])] at h ⊢
    omega
  · rw [if_neg h1] at h ⊢
    by_cases h2 : (97 ≤ c.toNat && c.toNat ≤ 122) = true
    · simp only [Bool.and_eq_true, decide_eq_true_eq] at h2
      rw [if_pos (by simp [h2.1, h2.2])] at h ⊢
      omega
    · rw [if_neg h2] at h
      exact absurd rfl h

/-! ## Rotor construction invariants -/

/-- The semantic invariants a successful `Rotor` construction establishes:
the forward wiring is a length-26 duplicate-free list of letter indices, and
`revMap` inverts it.  (None of these involve `pos`, so they are stable under
stepping.) -/
structure RotorInv (r : Rotor) : Prop where
  len : r.mapL.length = 26
  bounds : ∀ x ∈ r.mapL, 0 ≤ x ∧ x < 26
  nodup : r.mapL.Nodup
  rev : ∀ j : Nat, j < 26 → objGet r.revMap (r.mapL.getD j 0) = some (j : Int)

theorem headD_isUpper {l : List Char} (hlen : l.length = 1) (hall : l.all isUpper = true) :
    isUpper (l.headD 'A') = true := by
  rcases l with _ | ⟨c, rest⟩
  · simp at hlen
  · simp only [List.all_cons, Bool.and_eq_true] at hall
    simpa using hall.1

theorem all_isUpper_bounds {w : List Char} (h : w.all isUpper = true) :
    ∀ x ∈ w.map (fun c => (c.toNat : Int) - 65), 0 ≤ x ∧ x < 26 := by
  intro x hx
  obtain ⟨c, hc, hcx⟩ := List.mem_map.1 hx
  have hu := List.all_eq_true.1 h c hc
  simp only [isUpper, Bool.and_eq_true, decide_eq_true_eq] at hu
  omega

theorem mkRotor_inv {w s rs ip : List Char} {r : Rotor}
    (h : mkRotor w s rs ip = some r) : RotorInv r := by
  unfold mkRotor at h
  by_cases h1 : w.length = 26 ∧ w.all isUpper = true
  swap
  · rw [if_neg h1] at h; cases h
  rw [if_pos h1] at h
  by_cases h2 : s.length ≤ 26 ∧ s.all isUpper = true
  swap
  · rw [if_neg h2] at h; cases h
  rw [if_pos h2] at h
  by_cases h3 : rs.length = 1 ∧ rs.all isUpper = true
  swap
  · rw [if_neg h3] at h; cases h
  rw [if_pos h3] at h
  by_cases h4 : ip.length = 1 ∧ ip.all isUpper = true
  swap
  · rw [if_neg h4] at h; cases h
  rw [if_pos h4] at h
  rw [mapM_a2i_of_all_upper h1.2, Option.some_bind] at h
  by_cases h5 : (buildRevMap (w.map (fun c => (c.toNat : Int) - 65))).length = 26
  swap
  · rw [if_neg h5] at h; cases h
  rw [if_pos h5] at h
  rw [a2i_of_isUpper (headD_isUpper h3.1 h3.2), Option.some_bind] at h
  rw [mapM_a2i_of_all_upper h2.2, Option.some_bind] at h
  by_cases h7 : ((s.map (fun c => (c.toNat : Int) - 65)).foldl
      (fun t x => setAdd t (jsmod (x - (((rs.headD 'A').toNat : Int) - 65)) 26)) []).length
      = s.length
  swap
  · rw [if_neg h7] at h; cases h
  rw [if_pos h7] at h
  rw [a2i_of_isUpper (headD_isUpper h4.1 h4.2), Option.some_bind] at h
  injection h with h
  subst h
  have hlen : (w.map (fun c => (c.toNat : Int) - 65)).length = 26 := by
    rw [List.length_map]; exact h1.1
  have hnodup : (w.map (fun c => (c.toNat : Int) - 65)).Nodup :=
    nodup_of_buildRevMap_length (by rw [h5, hlen])
  refine ⟨hlen, all_isUpper_bounds h1.2, hnodup, ?_⟩
  intro j hj
  have := objGet_buildRevMap hnodup j (by rw [hlen]; exact hj)
  simpa using this

theorem getD_mem_of_lt {l : List Int} {j : Nat} (hj : j < l.length) : l.getD j 0 ∈ l := by
  rw [List.getD_eq_getElem?_getD, List.getElem?_eq_getElem hj]
  exact List.getElem_mem hj

theorem Rotor.transform_bounds (r : Rotor) (c : Int) :
    0 ≤ r.transform c ∧ r.transform c < 26 :=
  ⟨jsmod_nonneg _, jsmod_lt _⟩

theorem Rotor.revTransform_bounds (r : Rotor) (c : Int) :
    0 ≤ r.revTransform c ∧ r.revTransform c < 26 :=
  ⟨jsmod_nonneg _, jsmod_lt _⟩

/-- A valid wiring hits every letter index: 26 distinct values inside `0..25`
cover the whole range. -/
theorem mapL_surj {r : Rotor} (hinv : RotorInv r) {k : Int} (hk0 : 0 ≤ k) (hk1 : k < 26) :
    ∃ j : Nat, j < 26 ∧ r.mapL.getD j 0 = k := by
  have hsub : r.mapL.toFinset ⊆ Finset.Icc (0 : Int) 25 := by
    intro x hx
    have hb := hinv.bounds x (List.mem_toFinset.1 hx)
    simp only [Finset.mem_Icc]
    omega
  have hcard : (Finset.Icc (0 : Int) 25).card = 26 := by rw [Int.card_Icc]; rfl
  have hcard2 : r.mapL.toFinset.card = 26 := by
    rw [List.toFinset_card_of_nodup hinv.nodup, hinv.len]
  have heq : r.mapL.toFinset = Finset.Icc (0 : Int) 25 :=
    Finset.eq_of_subset_of_card_le hsub (by omega)
  have hkmem : k ∈ r.mapL := by
    rw [← List.mem_toFinset, heq]
    simp only [Finset.mem_Icc]
    omega
  obtain ⟨j, hjl, hjv⟩ := List.mem_iff_getElem.1 hkmem
  refine ⟨j, by rw [hinv.len] at hjl; exact hjl, ?_⟩
  rw [List.getD_eq_getElem?_getD, List.getElem?_eq_getElem hjl]
  exact hjv

/-- Backward-after-forward through a valid rotor is the identity on letter
indices, at every rotor position. -/
theorem rev_transform_eq {r : Rotor} (hinv : RotorInv r) {c : Int}
    (hc0 : 0 ≤ c) (hc1 : c < 26) : r.revTransform (r.transform c) = c := by
  unfold Rotor.transform Rotor.revTransform
  have hidx0 : 0 ≤ jsmod (c + r.pos) 26 := jsmod_nonneg _
  have hidx1 : jsmod (c + r.pos) 26 < 26 := jsmod_lt _
  have hjlt : (jsmod (c + r.pos) 26).toNat < 26 := by omega
  have hjcast : ((jsmod (c + r.pos) 26).toNat : Int) = jsmod (c + r.pos) 26 :=
    Int.toNat_of_nonneg hidx0
  have hvmem : r.mapL.getD (jsmod (c + r.pos) 26).toNat 0 ∈ r.mapL :=
    getD_mem_of_lt (by rw [hinv.len]; exact hjlt)
  have hvb := hinv.bounds _ hvmem
  have hback : jsmod (jsmod (r.mapL.getD (jsmod (c + r.pos) 26).toNat 0 - r.pos) 26
      + r.pos) 26 = r.mapL.getD (jsmod (c + r.pos) 26).toNat 0 := by
    rw [jsmod_eq, jsmod_eq]
    omega
  rw [hback, hinv.rev _ hjlt]
  simp only [Option.getD_some]
  rw [hjcast, jsmod_eq, jsmod_eq]
  omega

/-- Forward-after-backward through a valid rotor is the identity on letter
indices, at every rotor position. -/
theorem transform_rev_eq {r : Rotor} (hinv : RotorInv r) {c : Int}
    (hc0 : 0 ≤ c) (hc1 : c < 26) : r.transform (r.revTransform c) = c := by
  unfold Rotor.transform Rotor.revTransform
  have h0 : 0 ≤ jsmod (c + r.pos) 26 := jsmod_nonneg _
  have h1 : jsmod (c + r.pos) 26 < 26 := jsmod_lt _
  obtain ⟨j, hjlt, hjv⟩ := mapL_surj hinv h0 h1
  rw [← hjv, hinv.rev j hjlt]
  simp only [Option.getD_some]
  have hmid : jsmod (jsmod ((j : Int) - r.pos) 26 + r.pos) 26 = (j : Int) := by
    rw [jsmod_eq, jsmod_eq]
    omega
  rw [hmid]
  have htn : ((j : Int)).toNat = j := by omega
  rw [htn, hjv, jsmod_eq, jsmod_eq]
  omega

/-! ## PairMapBase construction invariants -/

/-- Invariant of the pair map built by the `PairMapBase` constructor: unique
keys, symmetric, irreflexive, all entries are letter indices. -/
def PairListInv (m : List (Int × Int)) : Prop :=
  (keys m).Nodup ∧
  (∀ a b : Int, (a, b) ∈ m → (b, a) ∈ m) ∧
  (∀ a b : Int, (a, b) ∈ m → a ≠ b) ∧
  (∀ a b : Int, (a, b) ∈ m → (0 ≤ a ∧ a < 26) ∧ (0 ≤ b ∧ b < 26))

theorem pairListInv_nil : PairListInv [] := by
  refine ⟨by simp [keys], ?_, ?_, ?_⟩ <;> intro a b h <;> simp at h

theorem isUpper_bounds {c : Char} (h : isUpper c = true) :
    0 ≤ (c.toNat : Int) - 65 ∧ (c.toNat : Int) - 65 < 26 := by
  simp only [isUpper, Bool.and_eq_true, decide_eq_true_eq] at h
  omega

theorem headD_eq_getD (l : List Char) : l.headD 'A' = l.getD 0 'A' := by
  rcases l with _ | ⟨c, rest⟩ <;> rfl

theorem getD_isUpper {l : List Char} (hall : l.all isUpper = true) {j : Nat}
    (hj : j < l.length) : isUpper (l.getD j 'A') = true := by
  rw [List.getD_eq_getElem?_getD, List.getElem?_eq_getElem hj]
  exact List.all_eq_true.1 hall _ (List.getElem_mem hj)

theorem pairStep_inv {m m' : List (Int × Int)} {t : List Char}
    (hm : PairListInv m) (h : pairStep m t = some m') :
    PairListInv m' ∧ ∀ k, k ∈ keys m → k ∈ keys m' := by
  unfold pairStep at h
  by_cases hf : t.length = 2 ∧ t.all isUpper = true
  swap
  · rw [if_neg hf] at h; cases h
  rw [if_pos hf] at h
  have hu0 : isUpper (t.headD 'A') = true := by
    rw [headD_eq_getD]; exact getD_isUpper hf.2 (by omega)
  have hu1 : isUpper (t.getD 1 'A') = true := getD_isUpper hf.2 (by omega)
  rw [a2i_of_isUpper hu0, Option.some_bind, a2i_of_isUpper hu1, Option.some_bind] at h
  set a : Int := ((t.headD 'A').toNat : Int) - 65 with ha
  set b : Int := ((t.getD 1 'A').toNat : Int) - 65 with hb
  by_cases hab : a = b
  · rw [if_pos hab] at h; cases h
  rw [if_neg hab] at h
  by_cases hA : objHas m a = true
  · rw [if_pos hA] at h; cases h
  rw [if_neg hA] at h
  by_cases hB : objHas m b = true
  · rw [if_pos hB] at h; cases h
  rw [if_neg hB] at h
  injection h with h
  subst h
  have e1 : objSet m a b = m ++ [(a, b)] :=
    objSet_of_not_has _ (by simpa using hA)
  have hB' : objHas (m ++ [(a, b)]) b = false := by
    rw [← Bool.not_eq_true, objHas_iff]
    simp only [keys, List.map_append, List.map_cons, List.map_nil, List.mem_append,
      List.mem_singleton]
    push_neg
    exact ⟨by simpa [objHas_iff, keys] using hB, Ne.symm hab⟩
  have e2 : objSet (m ++ [(a, b)]) b a = m ++ [(a, b)] ++ [(b, a)] :=
    objSet_of_not_has _ hB'
  rw [e1, e2]
  have hanm : a ∉ keys m := by simpa [objHas_iff] using hA
  have hbnm : b ∉ keys m := by simpa [objHas_iff] using hB
  have hau := isUpper_bounds hu0
  have hbu := isUpper_bounds hu1
  constructor
  · refine ⟨?_, ?_, ?_, ?_⟩
    · simp only [keys, List.map_append, List.map_cons, List.map_nil]
      rw [List.append_assoc, List.nodup_append]
      refine ⟨hm.1, ?_, ?_⟩
      · simp [hab]
      · intro x hx
        simp only [List.mem_append, List.mem_singleton, List.cons_append, List.nil_append,
          List.mem_cons, List.not_mem_nil]
        rintro (rfl | rfl | hfalse)
        · exact hanm hx
        · exact hbnm hx
        · simp at hfalse
    · intro x y hxy
      simp only [List.append_assoc, List.mem_append, List.mem_singleton, List.mem_cons,
        List.not_mem_nil, or_false, Prod.mk.injEq] at hxy ⊢
      rcases hxy with hxy | ⟨rfl, rfl⟩ | ⟨rfl, rfl⟩
      · exact Or.inl (hm.2.1 x y hxy)
      · tauto
      · tauto
    · intro x y hxy
      simp only [List.append_assoc, List.mem_append, List.mem_singleton, List.mem_cons,
        List.not_mem_nil, or_false, Prod.mk.injEq] at hxy
      rcases hxy with hxy | ⟨rfl, rfl⟩ | ⟨rfl, rfl⟩
      · exact hm.2.2.1 x y hxy
      · exact hab
      · exact Ne.symm hab
    · intro x y hxy
      simp only [List.append_assoc, List.mem_append, List.mem_singleton, List.mem_cons,
        List.not_mem_nil, or_false, Prod.mk.injEq] at hxy
      rcases hxy with hxy | ⟨rfl, rfl⟩ | ⟨rfl, rfl⟩
      · exact hm.2.2.2 x y hxy
      · exact ⟨hau, hbu⟩
      · exact ⟨hbu, hau⟩
  · intro k hk
    simp only [keys, List.map_append, List.mem_append]
    exact Or.inl (Or.inl hk)

theorem foldlM_pairStep_inv {toks : List (List Char)} {m0 m : List (Int × Int)}
    (h0 : PairListInv m0) (h : List.foldlM pairStep m0 toks = some m) :
    PairListInv m ∧ ∀ k, k ∈ keys m0 → k ∈ keys m := by
  induction toks generalizing m0 with
  | nil =>
    simp only [List.foldlM_nil] at h
    injection h with h
    subst h
    exact ⟨h0, fun _ hk => hk⟩
  | cons t ts ih =>
    rw [List.foldlM_cons] at h
    rcases hp : pairStep m0 t with _ | m1
    · rw [hp] at h
      simp at h
    · rw [hp] at h
      simp only [Option.bind_eq_bind, Option.some_bind] at h
      obtain ⟨h1, hmono1⟩ := pairStep_inv h0 hp
      obtain ⟨h2, hmono2⟩ := ih h1 h
      exact ⟨h2, fun k hk => hmono2 k (hmono1 k hk)⟩

theorem mkPairMapBase_inv {s : List Char} {p : PairMap}
    (h : mkPairMapBase s = some p) : PairListInv p.map := by
  unfold mkPairMapBase at h
  by_cases hs : s = []
  · rw [if_pos hs] at h
    injection h with h
    subst h
    exact pairListInv_nil
  · rw [if_neg hs] at h
    rcases hf : (splitWS s).foldlM pairStep [] with _ | m
    · rw [hf] at h; cases h
    · rw [hf] at h
      injection h with h
      subst h
      exact (foldlM_pairStep_inv pairListInv_nil hf).1

theorem pairTransform_invol {p : PairMap} (hp : PairListInv p.map) (c : Int) :
    p.transform (p.transform c) = c := by
  rcases hg : objGet p.map c with _ | v
  · simp [PairMap.transform, hg]
  · have hm := objGet_mem hg
    have hmv : (v, c) ∈ p.map := hp.2.1 c v hm
    have hgv : objGet p.map v = some c := objGet_of_mem_nodup hp.1 hmv
    simp [PairMap.transform, hg, hgv]

theorem pairTransform_bounds {p : PairMap} (hp : PairListInv p.map) {c : Int}
    (hc0 : 0 ≤ c) (hc1 : c < 26) : 0 ≤ p.transform c ∧ p.transform c < 26 := by
  rcases hg : objGet p.map c with _ | v
  · simp only [PairMap.transform, hg]
    exact ⟨hc0, hc1⟩
  · simp only [PairMap.transform, hg]
    exact (hp.2.2.2 c v (objGet_mem hg)).2

theorem mkReflector_base {s : List Char} {p : PairMap} (h : mkReflector s = some p) :
    mkPairMapBase s = some p ∧ p.map.length = 26 := by
  unfold mkReflector at h
  rcases hb : mkPairMapBase s with _ | q
  · rw [hb] at h; cases h
  · rw [hb, Option.some_bind] at h
    by_cases hl : q.map.length = 26
    · rw [if_pos hl] at h
      injection h with h
      subst h
      exact ⟨rfl, hl⟩
    · rw [if_neg hl] at h; cases h

/-- A reflector's 26 distinct keys inside `0..25` cover every letter index. -/
theorem reflector_covers {p : PairMap} (hp : PairListInv p.map)
    (hlen : p.map.length = 26) {c : Int} (hc0 : 0 ≤ c) (hc1 : c < 26) :
    objHas p.map c = true := by
  have hkb : ∀ x ∈ keys p.map, 0 ≤ x ∧ x < 26 := by
    intro x hx
    obtain ⟨pr, hpr, hprx⟩ := List.mem_map.1 hx
    obtain ⟨u, v⟩ := pr
    simp only at hprx
    subst hprx
    exact (hp.2.2.2 u v hpr).1
  have hsub : (keys p.map).toFinset ⊆ Finset.Icc (0 : Int) 25 := by
    intro x hx
    have := hkb x (List.mem_toFinset.1 hx)
    simp only [Finset.mem_Icc]
    omega
  have hcard : (Finset.Icc (0 : Int) 25).card = 26 := by rw [Int.card_Icc]; rfl
  have hcard2 : (keys p.map).toFinset.card = 26 := by
    rw [List.toFinset_card_of_nodup hp.1, length_keys, hlen]
  have heq : (keys p.map).toFinset = Finset.Icc (0 : Int) 25 :=
    Finset.eq_of_subset_of_card_le hsub (by omega)
  rw [objHas_iff, ← List.mem_toFinset, heq]
  simp only [Finset.mem_Icc]
  omega

theorem reflector_ne {p : PairMap} (hp : PairListInv p.map) (hlen : p.map.length = 26)
    {c : Int} (hc0 : 0 ≤ c) (hc1 : c < 26) : p.transform c ≠ c := by
  obtain ⟨v, hv⟩ := objGet_isSome_of_has (reflector_covers hp hlen hc0 hc1)
  simp only [PairMap.transform, hv]
  exact Ne.symm (hp.2.2.1 c v (objGet_mem hv))

/-! ## Machine validity and the signal path -/

/-- Validly constructed rotor: produced by the `Rotor` constructor from some
configuration strings. -/
def ConstructedRotor (r : Rotor) : Prop :=
  ∃ w s a b, mkRotor w s a b = some r

/-- A validly constructed rotor at an arbitrary position — the only mutation
the machine ever performs on a rotor is rotating it, so every reachable rotor
state is of this form. -/
def RotorAtAnyPos (r : Rotor) : Prop :=
  ∃ (r0 : Rotor) (p : Int), ConstructedRotor r0 ∧ r = { r0 with pos := p }

/-- A machine exactly as built by the constructors: every component validly
constructed, 3 or 4 rotors. -/
def ValidMachine (m : EnigmaMachine) : Prop :=
  (∀ r ∈ m.rotors, ConstructedRotor r) ∧
  (∃ s, mkReflector s = some m.reflector) ∧
  (∃ s, mkPlugboard s = some m.plugboard) ∧
  (m.rotors.length = 3 ∨ m.rotors.length = 4)

/-- A valid machine in an arbitrary (hence any reachable) rotor state. -/
def ValidMachineState (m : EnigmaMachine) : Prop :=
  (∀ r ∈ m.rotors, RotorAtAnyPos r) ∧
  (∃ s, mkReflector s = some m.reflector) ∧
  (∃ s, mkPlugboard s = some m.plugboard) ∧
  (m.rotors.length = 3 ∨ m.rotors.length = 4)

/-- The semantic invariants the crypt pipeline needs. -/
def MInv (m : EnigmaMachine) : Prop :=
  (∀ r ∈ m.rotors, RotorInv r) ∧
  (PairListInv m.reflector.map ∧ m.reflector.map.length = 26) ∧
  PairListInv m.plugboard.map

theorem rotorInv_atAnyPos {r : Rotor} (h : RotorAtAnyPos r) : RotorInv r := by
  obtain ⟨r0, p, ⟨w, s, a, b, hc⟩, rfl⟩ := h
  have h0 := mkRotor_inv hc
  exact ⟨h0.len, h0.bounds, h0.nodup, h0.rev⟩

theorem constructedRotor_atAnyPos {r : Rotor} (h : ConstructedRotor r) :
    RotorAtAnyPos r := ⟨r, r.pos, h, rfl⟩

theorem validMachine_state {m : EnigmaMachine} (h : ValidMachine m) :
    ValidMachineState m :=
  ⟨fun r hr => constructedRotor_atAnyPos (h.1 r hr), h.2.1, h.2.2.1, h.2.2.2⟩

theorem validMachineState_mInv {m : EnigmaMachine} (h : ValidMachineState m) : MInv m := by
  obtain ⟨hr, ⟨sr, hrefl⟩, ⟨sp, hplug⟩, _⟩ := h
  obtain ⟨hbase, hlen⟩ := mkReflector_base hrefl
  exact ⟨fun r hrm => rotorInv_atAnyPos (hr r hrm),
    ⟨mkPairMapBase_inv hbase, hlen⟩, mkPairMapBase_inv hplug⟩

theorem validMachine_mInv {m : EnigmaMachine} (h : ValidMachine m) : MInv m :=
  validMachineState_mInv (validMachine_state h)

theorem rotorInv_stepRotor {r : Rotor} (h : RotorInv r) : RotorInv (stepRotor r) :=
  ⟨h.len, h.bounds, h.nodup, h.rev⟩

theorem rotorAtAnyPos_stepRotor {r : Rotor} (h : RotorAtAnyPos r) :
    RotorAtAnyPos (stepRotor r) := by
  obtain ⟨r0, p, hc, rfl⟩ := h
  exact ⟨r0, jsmod (p + 1) 26, hc, rfl⟩

theorem stepRotors_mem {rs : List Rotor} {x : Rotor} (h : x ∈ stepRotors rs) :
    ∃ r ∈ rs, x = r ∨ x = stepRotor r := by
  rcases rs with _ | ⟨r0, _ | ⟨r1, _ | ⟨r2, rest⟩⟩⟩
  · exact ⟨x, h, Or.inl rfl⟩
  · exact ⟨x, h, Or.inl rfl⟩
  · simp only [stepRotors] at h
    split at h
    · simp only [List.mem_cons, List.not_mem_nil, or_false] at h
      rcases h with h | h
      · exact ⟨r0, by simp, Or.inr h⟩
      · exact ⟨r1, by simp, Or.inr h⟩
    · simp only [List.mem_cons, List.not_mem_nil, or_false] at h
      rcases h with h | h
      · exact ⟨r0, by simp, Or.inr h⟩
      · exact ⟨r1, by simp, Or.inl h⟩
  · simp only [stepRotors] at h
    split at h
    · split at h
      · simp only [List.mem_cons] at h
        rcases h with h | h | h | h
        · exact ⟨r0, by simp, Or.inr h⟩
        · exact ⟨r1, by simp, Or.inr h⟩
        · exact ⟨r2, by simp, Or.inr h⟩
        · exact ⟨x, by simp [h], Or.inl rfl⟩
      · simp only [List.mem_cons] at h
        rcases h with h | h | h | h
        · exact ⟨r0, by simp, Or.inr h⟩
        · exact ⟨r1, by simp, Or.inr h⟩
        · exact ⟨r2, by simp, Or.inl h⟩
        · exact ⟨x, by simp [h], Or.inl rfl⟩
    · simp only [List.mem_cons] at h
      rcases h with h | h | h | h
      · exact ⟨r0, by simp, Or.inr h⟩
      · exact ⟨r1, by simp, Or.inl h⟩
      · exact ⟨r2, by simp, Or.inl h⟩
      · exact ⟨x, by simp [h], Or.inl rfl⟩

theorem length_stepRotors (rs : List Rotor) : (stepRotors rs).length = rs.length := by
  rcases rs with _ | ⟨r0, _ | ⟨r1, _ | ⟨r2, rest⟩⟩⟩
  · rfl
  · rfl
  · simp only [stepRotors]
    split
    · rfl
    · rfl
  · simp only [stepRotors]
    split
    · split
      · simp
      · simp
    · simp

theorem mInv_step {m : EnigmaMachine} (h : MInv m) : MInv m.step := by
  refine ⟨?_, h.2.1, h.2.2⟩
  intro x hx
  obtain ⟨r, hr, hor⟩ := stepRotors_mem hx
  rcases hor with h1 | h1
  · rw [h1]; exact h.1 r hr
  · rw [h1]; exact rotorInv_stepRotor (h.1 r hr)

theorem validMachineState_step {m : EnigmaMachine} (h : ValidMachineState m) :
    ValidMachineState m.step := by
  refine ⟨?_, h.2.1, h.2.2.1, ?_⟩
  · intro x hx
    obtain ⟨r, hr, hor⟩ := stepRotors_mem hx
    rcases hor with h1 | h1
    · rw [h1]; exact h.1 r hr
    · rw [h1]; exact rotorAtAnyPos_stepRotor (h.1 r hr)
  · show (stepRotors m.rotors).length = 3 ∨ (stepRotors m.rotors).length = 4
    rw [length_stepRotors]
    exact h.2.2.2

/-! ## The rotor stack as a permutation -/

theorem fwd_bounds (rs : List Rotor) {c : Int} (hc0 : 0 ≤ c) (hc1 : c < 26) :
    0 ≤ rs.foldl (fun l r => r.transform l) c ∧
      rs.foldl (fun l r => r.transform l) c < 26 := by
  induction rs generalizing c with
  | nil => exact ⟨hc0, hc1⟩
  | cons r rest ih =>
    rw [List.foldl_cons]
    exact ih (r.transform_bounds c).1 (r.transform_bounds c).2

theorem bwd_bounds (rs : List Rotor) {c : Int} (hc0 : 0 ≤ c) (hc1 : c < 26) :
    0 ≤ rs.foldl (fun l r => r.revTransform l) c ∧
      rs.foldl (fun l r => r.revTransform l) c < 26 := by
  induction rs generalizing c with
  | nil => exact ⟨hc0, hc1⟩
  | cons r rest ih =>
    rw [List.foldl_cons]
    exact ih (r.revTransform_bounds c).1 (r.revTransform_bounds c).2

/-- The backward pass (reversed rotor order, `revTransform`) undoes the
forward pass. -/
theorem bwd_fwd (rs : List Rotor) (hrs : ∀ r ∈ rs, RotorInv r) {c : Int}
    (hc0 : 0 ≤ c) (hc1 : c < 26) :
    rs.reverse.foldl (fun l r => r.revTransform l)
      (rs.foldl (fun l r => r.transform l) c) = c := by
  induction rs generalizing c with
  | nil => simp
  | cons r rest ih =>
    rw [List.foldl_cons, List.reverse_cons, List.foldl_append, List.foldl_cons,
      List.foldl_nil]
    rw [ih (fun y hy => hrs y (List.mem_cons_of_mem r hy))
      (r.transform_bounds c).1 (r.transform_bounds c).2]
    exact rev_transform_eq (hrs r (List.mem_cons_self r rest)) hc0 hc1

/-- The forward pass undoes the backward pass. -/
theorem fwd_bwd (rs : List Rotor) (hrs : ∀ r ∈ rs, RotorInv r) {c : Int}
    (hc0 : 0 ≤ c) (hc1 : c < 26) :
    rs.foldl (fun l r => r.transform l)
      (rs.reverse.foldl (fun l r => r.revTransform l) c) = c := by
  induction rs generalizing c with
  | nil => simp
  | cons r rest ih =>
    simp only [List.reverse_cons, List.foldl_append, List.foldl_cons, List.foldl_nil]
    rw [transform_rev_eq (hrs r (List.mem_cons_self r rest))
      (bwd_bounds rest.reverse hc0 hc1).1 (bwd_bounds rest.reverse hc0 hc1).2]
    exact ih (fun y hy => hrs y (List.mem_cons_of_mem r hy)) hc0 hc1

/-! ## The per-letter pipeline -/

theorem cryptLetter_eq (m : EnigmaMachine) (c : Int) :
    cryptLetter m c =
      m.plugboard.transform
        (m.rotors.reverse.foldl (fun l r => r.revTransform l)
          (m.reflector.transform
            (m.rotors.foldl (fun l r => r.transform l)
              (m.plugboard.transform c)))) := rfl

theorem cryptLetter_bounds {m : EnigmaMachine} (h : MInv m) {c : Int}
    (hc0 : 0 ≤ c) (hc1 : c < 26) :
    0 ≤ cryptLetter m c ∧ cryptLetter m c < 26 := by
  rw [cryptLetter_eq]
  have h1 := pairTransform_bounds h.2.2 hc0 hc1
  have h2 := fwd_bounds m.rotors h1.1 h1.2
  have h3 := pairTransform_bounds h.2.1.1 h2.1 h2.2
  have h4 := bwd_bounds m.rotors.reverse h3.1 h3.2
  exact pairTransform_bounds h.2.2 h4.1 h4.2

/-- The per-letter pipeline is an involution: running the identical signal
path a second time (in the same rotor state) restores the letter. -/
theorem cryptLetter_invol {m : EnigmaMachine} (h : MInv m) {c : Int}
    (hc0 : 0 ≤ c) (hc1 : c < 26) :
    cryptLetter m (cryptLetter m c) = c := by
  rw [cryptLetter_eq, cryptLetter_eq]
  have hu := pairTransform_bounds h.2.2 hc0 hc1
  have hf := fwd_bounds m.rotors hu.1 hu.2
  have hd := pairTransform_bounds h.2.1.1 hf.1 hf.2
  rw [pairTransform_invol h.2.2]
  rw [fwd_bwd m.rotors h.1 hd.1 hd.2]
  rw [pairTransform_invol h.2.1.1]
  rw [bwd_fwd m.rotors h.1 hu.1 hu.2]
  exact pairTransform_invol h.2.2 c

/-- No letter encrypts to itself: the reflector has no fixed point, and the
rest of the pipeline conjugates it by a permutation. -/
theorem cryptLetter_ne {m : EnigmaMachine} (h : MInv m) {c : Int}
    (hc0 : 0 ≤ c) (hc1 : c < 26) : cryptLetter m c ≠ c := by
  intro heq
  rw [cryptLetter_eq] at heq
  have hu := pairTransform_bounds h.2.2 hc0 hc1
  have hf := fwd_bounds m.rotors hu.1 hu.2
  have hd := pairTransform_bounds h.2.1.1 hf.1 hf.2
  have h2 := congrArg (fun x => m.plugboard.transform x) heq
  simp only at h2
  rw [pairTransform_invol h.2.2] at h2
  have h3 := congrArg (fun x => m.rotors.foldl (fun l r => r.transform l) x) h2
  simp only at h3
  rw [fwd_bwd m.rotors h.1 hd.1 hd.2] at h3
  exact reflector_ne h.2.1.1 h.2.1.2 hf.1 hf.2 h3

/-! ## The letter codec on pipeline outputs -/

theorem char_ofNat_toNat {n : Nat} (h : n < 55296) : (Char.ofNat n).toNat = n := by
  unfold Char.ofNat
  rw [dif_pos (Or.inl h)]
  rfl

theorem i2a_eq_some {l : Int} (hc0 : 0 ≤ l) (hc1 : l < 26) :
    i2a l = some (Char.ofNat (l + 65).toNat) := by
  unfold i2a
  rw [if_pos]
  simp only [Bool.and_eq_true, decide_eq_true_eq]
  exact ⟨hc0, hc1⟩

theorem a2iPerm_upper_char {l : Int} (hc0 : 0 ≤ l) (hc1 : l < 26) :
    a2iPerm (Char.ofNat (l + 65).toNat) = l := by
  have ht : (Char.ofNat (l + 65).toNat).toNat = (l + 65).toNat :=
    char_ofNat_toNat (by omega)
  unfold a2iPerm
  rw [ht, if_pos (by simp only [Bool.and_eq_true, decide_eq_true_eq]; omega)]
  omega

theorem i2a_inj {x y : Int} {ch : Char} (hx0 : 0 ≤ x) (hx1 : x < 26)
    (hy0 : 0 ≤ y) (hy1 : y < 26) (hx : i2a x = some ch) (hy : i2a y = some ch) :
    x = y := by
  rw [i2a_eq_some hx0 hx1] at hx
  rw [i2a_eq_some hy0 hy1] at hy
  injection hx with hx
  injection hy with hy
  have hxy : (Char.ofNat (x + 65).toNat).toNat = (Char.ofNat (y + 65).toNat).toNat := by
    rw [hx, hy]
  rw [char_ofNat_toNat (by omega), char_ofNat_toNat (by omega)] at hxy
  omega

theorem upperNorm_letter {c : Char} (h : ¬ a2iPerm c = -1) :
    i2a (a2iPerm c) = some (upperNorm c) := by
  obtain ⟨h0, h1⟩ := a2iPerm_bounds h
  unfold upperNorm
  rw [i2a_eq_some h0 h1]
  rfl

theorem upperNorm_nonletter {c : Char} (h : a2iPerm c = -1) : upperNorm c = c := by
  unfold upperNorm
  rw [h]
  rfl

/-! ## `crypt` equations -/

theorem crypt_nil (m : EnigmaMachine) : crypt m [] = some ([], m) := rfl

theorem crypt_cons_nonletter {m : EnigmaMachine} {l : Char} (h : a2iPerm l = -1)
    (rest : List Char) :
    crypt m (l :: rest) = (crypt m rest).bind fun om => some (l :: om.1, om.2) := by
  simp only [crypt]
  rw [if_pos h]

theorem crypt_cons_letter {m : EnigmaMachine} {l : Char} (h : ¬ a2iPerm l = -1)
    (rest : List Char) :
    crypt m (l :: rest) = (i2a (cryptLetter m.step (a2iPerm l))).bind fun ch =>
      (crypt m.step rest).bind fun om => some (ch :: om.1, om.2) := by
  simp only [crypt]
  rw [if_neg h]

/-- The combined totality / length / round-trip induction: a machine with the
construction invariants encrypts any input without error, keeps the length,
and a second identically-configured machine run over the ciphertext restores
the uppercased input, finishing in the same rotor state. -/
theorem crypt_round {m : EnigmaMachine} (h : MInv m) (input : List Char) :
    ∃ ct m', crypt m input = some (ct, m') ∧ ct.length = input.length ∧
      crypt m ct = some (input.map upperNorm, m') := by
  induction input generalizing m with
  | nil => exact ⟨[], m, rfl, rfl, rfl⟩
  | cons l rest ih =>
    by_cases hl : a2iPerm l = -1
    · obtain ⟨ct, m', h1, h2, h3⟩ := ih h
      refine ⟨l :: ct, m', ?_, ?_, ?_⟩
      · rw [crypt_cons_nonletter hl, h1]
        rfl
      · simpa using h2
      · rw [crypt_cons_nonletter hl, h3]
        simp [List.map_cons, upperNorm_nonletter hl]
    · obtain ⟨h0, h1'⟩ := a2iPerm_bounds hl
      have hm1 : MInv m.step := mInv_step h
      obtain ⟨ct, m', hc1, hc2, hc3⟩ := ih hm1
      have he := cryptLetter_bounds hm1 h0 h1'
      refine ⟨Char.ofNat (cryptLetter m.step (a2iPerm l) + 65).toNat :: ct, m', ?_, ?_, ?_⟩
      · rw [crypt_cons_letter hl, i2a_eq_some he.1 he.2, Option.some_bind, hc1]
        rfl
      · simpa using hc2
      · have hpe : a2iPerm (Char.ofNat (cryptLetter m.step (a2iPerm l) + 65).toNat)
            = cryptLetter m.step (a2iPerm l) := a2iPerm_upper_char he.1 he.2
        have hne : ¬ a2iPerm (Char.ofNat (cryptLetter m.step (a2iPerm l) + 65).toNat)
            = -1 := by rw [hpe]; omega
        rw [crypt_cons_letter hne, hpe]
        have hinvol : cryptLetter m.step (cryptLetter m.step (a2iPerm l)) = a2iPerm l :=
          cryptLetter_invol hm1 h0 h1'
        rw [hinvol, i2a_eq_some h0 h1', Option.some_bind, hc3, Option.some_bind]
        have hun : Char.ofNat (a2iPerm l + 65).toNat = upperNorm l := by
          have := upperNorm_letter hl
          rw [i2a_eq_some h0 h1'] at this
          injection this with this
        rw [List.map_cons, hun]

/-! ## Facts about whitespace splitting -/

theorem splitWS_nil : splitWS [] = [[]] := rfl

theorem splitWS_single (c : Char) :
    splitWS [c] = if isWS c then [[], []] else [[c]] := by
  by_cases hw : isWS c = true
  · simp [splitWS, hw]
  · simp [splitWS, hw]

/-- One-step unfolding that keeps the recursive call folded. -/
theorem splitWS_cons_cons (c r : Char) (rest : List Char) :
    splitWS (c :: r :: rest) =
      if isWS c then
        (if isWS r then splitWS (r :: rest) else [] :: splitWS (r :: rest))
      else
        match splitWS (r :: rest) with
        | [] => [[c]]
        | t :: ts => (c :: t) :: ts := rfl

theorem splitWS_ne_nil (s : List Char) : splitWS s ≠ [] := by
  induction s with
  | nil => simp [splitWS_nil]
  | cons c rest ih =>
    rcases rest with _ | ⟨r, rest'⟩
    · rw [splitWS_single]
      by_cases hw : isWS c = true
      · rw [if_pos hw]; simp
      · rw [if_neg hw]; simp
    · rw [splitWS_cons_cons]
      by_cases hw : isWS c = true
      · rw [if_pos hw]
        by_cases hr : isWS r = true
        · rw [if_pos hr]; exact ih
        · rw [if_neg hr]; simp
      · rw [if_neg hw]
        rcases htoks : splitWS (r :: rest') with _ | ⟨t, ts⟩
        · exact absurd htoks ih
        · simp

theorem splitWS_ne_singleton_nil {s : List Char} (hs : s ≠ []) : splitWS s ≠ [[]] := by
  induction s with
  | nil => exact absurd rfl hs
  | cons c rest ih =>
    rcases rest with _ | ⟨r, rest'⟩
    · rw [splitWS_single]
      by_cases hw : isWS c = true
      · rw [if_pos hw]; simp
      · rw [if_neg hw]; simp
    · rw [splitWS_cons_cons]
      by_cases hw : isWS c = true
      · rw [if_pos hw]
        by_cases hr : isWS r = true
        · rw [if_pos hr]; exact ih (by simp)
        · rw [if_neg hr]
          intro he
          injection he with h1 h2
          exact splitWS_ne_nil _ h2
      · rw [if_neg hw]
        rcases htoks : splitWS (r :: rest') with _ | ⟨t, ts⟩
        · exact absurd htoks (splitWS_ne_nil _)
        · intro he
          injection he with h1 h2
          cases h1

theorem splitWS_chars {s : List Char} {t : List Char} (ht : t ∈ splitWS s) :
    ∀ x ∈ t, x ∈ s := by
  induction s generalizing t with
  | nil =>
    rw [splitWS_nil] at ht
    simp only [List.mem_singleton] at ht
    subst ht
    simp
  | cons c rest ih =>
    intro x hx
    rcases rest with _ | ⟨r, rest'⟩
    · rw [splitWS_single] at ht
      by_cases hw : isWS c = true
      · rw [if_pos hw] at ht
        have ht' : t = [] := by simpa using ht
        subst ht'
        simp at hx
      · rw [if_neg hw] at ht
        simp only [List.mem_singleton] at ht
        subst ht
        simpa using hx
    · rw [splitWS_cons_cons] at ht
      by_cases hw : isWS c = true
      · rw [if_pos hw] at ht
        by_cases hr : isWS r = true
        · rw [if_pos hr] at ht
          exact List.mem_cons_of_mem c (ih ht x hx)
        · rw [if_neg hr] at ht
          rcases List.mem_cons.1 ht with rfl | ht'
          · simp at hx
          · exact List.mem_cons_of_mem c (ih ht' x hx)
      · rw [if_neg hw] at ht
        rcases htoks : splitWS (r :: rest') with _ | ⟨t0, ts⟩
        · exact absurd htoks (splitWS_ne_nil _)
        · rw [htoks] at ht
          simp only [List.mem_cons] at ht
          rcases ht with rfl | ht'
          · rcases List.mem_cons.1 hx with rfl | hx'
            · simp
            · exact List.mem_cons_of_mem c
                (ih (htoks ▸ List.mem_cons_self t0 ts) x hx')
          · exact List.mem_cons_of_mem c
              (ih (htoks ▸ List.mem_cons_of_mem t0 ht') x hx)

theorem splitWS_headD {s : List Char} (hs : s ≠ [])
    (hw : isWS (s.headD 'A') = true) : (splitWS s).headD [] = [] := by
  induction s with
  | nil => exact absurd rfl hs
  | cons c rest ih =>
    rw [List.headD_cons] at hw
    rcases rest with _ | ⟨r, rest'⟩
    · rw [splitWS_single, if_pos hw]
      simp
    · rw [splitWS_cons_cons, if_pos hw]
      by_cases hr : isWS r = true
      · rw [if_pos hr]
        exact ih (by simp) (by simpa using hr)
      · rw [if_neg hr]
        simp

theorem splitWS_getLastD {s : List Char} (hs : s ≠ [])
    (hw : isWS (s.getLastD 'A') = true) : (splitWS s).getLastD [] = [] := by
  induction s with
  | nil => exact absurd rfl hs
  | cons c rest ih =>
    rcases rest with _ | ⟨r, rest'⟩
    · have hc : isWS c = true := by simpa [List.getLastD_cons] using hw
      rw [splitWS_single, if_pos hc]
      simp
    · have hw' : isWS ((r :: rest').getLastD 'A') = true := by
        simpa [List.getLastD_cons] using hw
      have ihr := ih (by simp) hw'
      rw [splitWS_cons_cons]
      by_cases hc : isWS c = true
      · rw [if_pos hc]
        by_cases hr : isWS r = true
        · rw [if_pos hr]; exact ihr
        · rw [if_neg hr]
          rcases htoks : splitWS (r :: rest') with _ | ⟨t0, ts⟩
          · exact absurd htoks (splitWS_ne_nil _)
          · rw [htoks] at ihr
            simpa [List.getLastD_cons] using ihr
      · rw [if_neg hc]
        rcases htoks : splitWS (r :: rest') with _ | ⟨t0, ts⟩
        · exact absurd htoks (splitWS_ne_nil _)
        · rw [htoks] at ihr
          rcases ts with _ | ⟨t1, ts'⟩
          · have ht0 : t0 = [] := by simpa [List.getLastD_cons] using ihr
            subst ht0
            exact absurd htoks (splitWS_ne_singleton_nil (by simp))
          · simpa [List.getLastD_cons] using ihr

theorem mem_of_headD_nil {l : List (List Char)} (hne : l ≠ [])
    (h : l.headD [] = []) : [] ∈ l := by
  rcases l with _ | ⟨t, ts⟩
  · exact absurd rfl hne
  · rw [List.headD_cons] at h
    subst h
    simp

theorem mem_of_getLastD_nil {l : List (List Char)} (hne : l ≠ [])
    (h : l.getLastD [] = []) : [] ∈ l := by
  induction l with
  | nil => exact absurd rfl hne
  | cons t ts ih =>
    rcases ts with _ | ⟨t1, ts'⟩
    · simp only [List.getLastD_cons] at h
      have ht : t = [] := by simpa using h
      simp [ht]
    · rw [List.getLastD_cons, List.getLastD_cons] at h
      have h2 : (t1 :: ts').getLastD [] = [] := by
        rw [List.getLastD_cons]
        exact h
      exact List.mem_cons_of_mem t (ih (by simp) h2)

/-! ## Failure propagation in pair parsing -/

theorem pairStep_nil_none (m : List (Int × Int)) : pairStep m [] = none := by
  simp [pairStep]

theorem foldlM_pairStep_none {toks : List (List Char)} {t : List Char}
    (ht : t ∈ toks) (hbad : ∀ macc, pairStep macc t = none) (m0 : List (Int × Int)) :
    List.foldlM pairStep m0 toks = none := by
  induction toks generalizing m0 with
  | nil => simp at ht
  | cons t0 ts ih =>
    rw [List.foldlM_cons]
    rcases List.mem_cons.1 ht with rfl | hmem
    · rw [hbad m0]
      rfl
    · rcases hp : pairStep m0 t0 with _ | m1
      · rfl
      · simp only [Option.bind_eq_bind, Option.some_bind]
        exact ih hmem m1

theorem mkPairMapBase_none_of_empty_token {s : List Char} (hs : s ≠ [])
    (h : [] ∈ splitWS s) : mkPairMapBase s = none := by
  unfold mkPairMapBase
  rw [if_neg hs, foldlM_pairStep_none h pairStep_nil_none []]
  rfl

theorem two_of_length_two {t : List Char} (h : t.length = 2) :
    t = [t.getD 0 'A', t.getD 1 'A'] := by
  rcases t with _ | ⟨c0, _ | ⟨c1, _ | ⟨c2, r⟩⟩⟩ <;> simp_all

/-- Every letter of a successfully processed pair token ends up as a key. -/
theorem pairStep_mem_keys {m m' : List (Int × Int)} {t : List Char}
    (h : pairStep m t = some m') :
    ∀ x ∈ t, ∃ v, a2i x = some v ∧ v ∈ keys m' := by
  unfold pairStep at h
  by_cases hf : t.length = 2 ∧ t.all isUpper = true
  swap
  · rw [if_neg hf] at h; cases h
  rw [if_pos hf] at h
  have hu0 : isUpper (t.headD 'A') = true := by
    rw [headD_eq_getD]; exact getD_isUpper hf.2 (by omega)
  have hu1 : isUpper (t.getD 1 'A') = true := getD_isUpper hf.2 (by omega)
  rw [a2i_of_isUpper hu0, Option.some_bind, a2i_of_isUpper hu1, Option.some_bind] at h
  by_cases hab : (((t.headD 'A').toNat : Int) - 65) = (((t.getD 1 'A').toNat : Int) - 65)
  · rw [if_pos hab] at h; cases h
  rw [if_neg hab] at h
  by_cases hA : objHas m (((t.headD 'A').toNat : Int) - 65) = true
  · rw [if_pos hA] at h; cases h
  rw [if_neg hA] at h
  by_cases hB : objHas m (((t.getD 1 'A').toNat : Int) - 65) = true
  · rw [if_pos hB] at h; cases h
  rw [if_neg hB] at h
  injection h with h
  subst h
  intro x hx
  have hxeq : x = t.getD 0 'A' ∨ x = t.getD 1 'A' := by
    rw [two_of_length_two hf.1] at hx
    simpa using hx
  have hmem0 : (((t.headD 'A').toNat : Int) - 65)
      ∈ keys (objSet (objSet m (((t.headD 'A').toNat : Int) - 65)
        (((t.getD 1 'A').toNat : Int) - 65)) (((t.getD 1 'A').toNat : Int) - 65)
        (((t.headD 'A').toNat : Int) - 65)) := by
    rw [mem_keys_objSet]
    left
    rw [mem_keys_objSet]
    right
    rfl
  have hmem1 : (((t.getD 1 'A').toNat : Int) - 65)
      ∈ keys (objSet (objSet m (((t.headD 'A').toNat : Int) - 65)
        (((t.getD 1 'A').toNat : Int) - 65)) (((t.getD 1 'A').toNat : Int) - 65)
        (((t.headD 'A').toNat : Int) - 65)) := by
    rw [mem_keys_objSet]
    right
    rfl
  rcases hxeq with rfl | rfl
  · refine ⟨(((t.headD 'A').toNat : Int) - 65), ?_, hmem0⟩
    rw [← headD_eq_getD]
    exact a2i_of_isUpper hu0
  · exact ⟨_, a2i_of_isUpper hu1, hmem1⟩

/-- A pair token fails when one of its letters is already connected. -/
theorem pairStep_none_of_key {m : List (Int × Int)} {t : List Char} {x : Char} {v : Int}
    (hx : x ∈ t) (hv : a2i x = some v) (hk : v ∈ keys m) : pairStep m t = none := by
  unfold pairStep
  by_cases hf : t.length = 2 ∧ t.all isUpper = true
  swap
  · rw [if_neg hf]
  rw [if_pos hf]
  have hu0 : isUpper (t.headD 'A') = true := by
    rw [headD_eq_getD]; exact getD_isUpper hf.2 (by omega)
  have hu1 : isUpper (t.getD 1 'A') = true := getD_isUpper hf.2 (by omega)
  rw [a2i_of_isUpper hu0, Option.some_bind, a2i_of_isUpper hu1, Option.some_bind]
  have hxeq : x = t.getD 0 'A' ∨ x = t.getD 1 'A' := by
    rw [two_of_length_two hf.1] at hx
    simpa using hx
  by_cases hab : (((t.headD 'A').toNat : Int) - 65) = (((t.getD 1 'A').toNat : Int) - 65)
  · rw [if_pos hab]
  rw [if_neg hab]
  have hveq : v = (((t.headD 'A').toNat : Int) - 65) ∨ v = (((t.getD 1 'A').toNat : Int) - 65) := by
    rcases hxeq with rfl | rfl
    · left
      rw [← headD_eq_getD, a2i_of_isUpper hu0] at hv
      injection hv with hv
      exact hv.symm
    · right
      rw [a2i_of_isUpper hu1] at hv
      injection hv with hv
      exact hv.symm
  rcases hveq with rfl | rfl
  · rw [if_pos (objHas_iff.2 hk)]
  · by_cases hA : objHas m (((t.headD 'A').toNat : Int) - 65) = true
    · rw [if_pos hA]
    · rw [if_neg hA, if_pos (objHas_iff.2 hk)]

theorem pairStep_keys_mono {m m' : List (Int × Int)} {t : List Char}
    (h : pairStep m t = some m') : ∀ k, k ∈ keys m → k ∈ keys m' := by
  unfold pairStep at h
  by_cases hf : t.length = 2 ∧ t.all isUpper = true
  swap
  · rw [if_neg hf] at h; cases h
  rw [if_pos hf] at h
  have hu0 : isUpper (t.headD 'A') = true := by
    rw [headD_eq_getD]; exact getD_isUpper hf.2 (by omega)
  have hu1 : isUpper (t.getD 1 'A') = true := getD_isUpper hf.2 (by omega)
  rw [a2i_of_isUpper hu0, Option.some_bind, a2i_of_isUpper hu1, Option.some_bind] at h
  by_cases hab : (((t.headD 'A').toNat : Int) - 65) = (((t.getD 1 'A').toNat : Int) - 65)
  · rw [if_pos hab] at h; cases h
  rw [if_neg hab] at h
  by_cases hA : objHas m (((t.headD 'A').toNat : Int) - 65) = true
  · rw [if_pos hA] at h; cases h
  rw [if_neg hA] at h
  by_cases hB : objHas m (((t.getD 1 'A').toNat : Int) - 65) = true
  · rw [if_pos hB] at h; cases h
  rw [if_neg hB] at h
  injection h with h
  subst h
  intro k hk
  rw [mem_keys_objSet]
  left
  rw [mem_keys_objSet]
  left
  exact hk

theorem foldlM_pairStep_keys_mono {toks : List (List Char)} {m0 m : List (Int × Int)}
    (h : List.foldlM pairStep m0 toks = some m) : ∀ k, k ∈ keys m0 → k ∈ keys m := by
  induction toks generalizing m0 with
  | nil =>
    simp only [List.foldlM_nil] at h
    injection h with h
    subst h
    exact fun _ hk => hk
  | cons t ts ih =>
    rw [List.foldlM_cons] at h
    rcases hp : pairStep m0 t with _ | m1
    · rw [hp] at h; simp at h
    · rw [hp] at h
      simp only [Option.bind_eq_bind, Option.some_bind] at h
      exact fun k hk => ih h k (pairStep_keys_mono hp k hk)

/-- If two different tokens of the list share a letter, the fold fails. -/
theorem foldlM_pairStep_shared {l1 : List (List Char)} {t1 : List Char}
    {l2 : List (List Char)} {t2 : List Char} {l3 : List (List Char)} {x : Char}
    (hx1 : x ∈ t1) (hx2 : x ∈ t2) (m0 : List (Int × Int)) :
    List.foldlM pairStep m0 (l1 ++ t1 :: (l2 ++ t2 :: l3)) = none := by
  rw [List.foldlM_append]
  rcases h1 : List.foldlM pairStep m0 l1 with _ | m1
  · rfl
  simp only [Option.bind_eq_bind, Option.some_bind]
  rw [List.foldlM_cons]
  rcases h2 : pairStep m1 t1 with _ | m2
  · rfl
  simp only [Option.bind_eq_bind, Option.some_bind]
  rw [List.foldlM_append]
  rcases h3 : List.foldlM pairStep m2 l2 with _ | m3
  · rfl
  simp only [Option.bind_eq_bind, Option.some_bind]
  rw [List.foldlM_cons]
  obtain ⟨v, hva, hvm⟩ := pairStep_mem_keys h2 x hx1
  have hvm3 : v ∈ keys m3 := foldlM_pairStep_keys_mono h3 v hvm
  rw [pairStep_none_of_key hx2 hva hvm3]
  rfl

/-- Keys of a built pair map come from letters of the pair string. -/
theorem pairStep_keys_sub {m m' : List (Int × Int)} {t : List Char}
    (h : pairStep m t = some m') :
    ∀ k ∈ keys m', k ∈ keys m ∨ ∃ c ∈ t, a2i c = some k := by
  unfold pairStep at h
  by_cases hf : t.length = 2 ∧ t.all isUpper = true
  swap
  · rw [if_neg hf] at h; cases h
  rw [if_pos hf] at h
  have hu0 : isUpper (t.headD 'A') = true := by
    rw [headD_eq_getD]; exact getD_isUpper hf.2 (by omega)
  have hu1 : isUpper (t.getD 1 'A') = true := getD_isUpper hf.2 (by omega)
  rw [a2i_of_isUpper hu0, Option.some_bind, a2i_of_isUpper hu1, Option.some_bind] at h
  by_cases hab : (((t.headD 'A').toNat : Int) - 65) = (((t.getD 1 'A').toNat : Int) - 65)
  · rw [if_pos hab] at h; cases h
  rw [if_neg hab] at h
  by_cases hA : objHas m (((t.headD 'A').toNat : Int) - 65) = true
  · rw [if_pos hA] at h; cases h
  rw [if_neg hA] at h
  by_cases hB : objHas m (((t.getD 1 'A').toNat : Int) - 65) = true
  · rw [if_pos hB] at h; cases h
  rw [if_neg hB] at h
  injection h with h
  subst h
  intro k hk
  rw [mem_keys_objSet] at hk
  rcases hk with hk | rfl
  · rw [mem_keys_objSet] at hk
    rcases hk with hk | rfl
    · exact Or.inl hk
    · refine Or.inr ⟨t.headD 'A', ?_, a2i_of_isUpper hu0⟩
      rw [two_of_length_two hf.1, headD_eq_getD]
      simp
  · refine Or.inr ⟨t.getD 1 'A', ?_, a2i_of_isUpper hu1⟩
    rw [two_of_length_two hf.1]
    simp

theorem foldlM_pairStep_keys_sub {toks : List (List Char)} {m0 m : List (Int × Int)}
    (h : List.foldlM pairStep m0 toks = some m) :
    ∀ k ∈ keys m, k ∈ keys m0 ∨ ∃ t ∈ toks, ∃ c ∈ t, a2i c = some k := by
  induction toks generalizing m0 with
  | nil =>
    simp only [List.foldlM_nil] at h
    injection h with h
    subst h
    exact fun k hk => Or.inl hk
  | cons t ts ih =>
    rw [List.foldlM_cons] at h
    rcases hp : pairStep m0 t with _ | m1
    · rw [hp] at h; simp at h
    · rw [hp] at h
      simp only [Option.bind_eq_bind, Option.some_bind] at h
      intro k hk
      rcases ih h k hk with hk1 | ⟨t', ht', hc⟩
      · rcases pairStep_keys_sub hp k hk1 with hk2 | ⟨c, hc, hck⟩
        · exact Or.inl hk2
        · exact Or.inr ⟨t, List.mem_cons_self t ts, c, hc, hck⟩
      · exact Or.inr ⟨t', List.mem_cons_of_mem t ht', hc⟩

theorem mkPairMapBase_keys_sub {s : List Char} {p : PairMap}
    (h : mkPairMapBase s = some p) :
    ∀ k ∈ keys p.map, ∃ c ∈ s, a2i c = some k := by
  unfold mkPairMapBase at h
  by_cases hs : s = []
  · rw [if_pos hs] at h
    injection h with h
    subst h
    intro k hk
    simp [keys] at hk
  · rw [if_neg hs] at h
    rcases hf : (splitWS s).foldlM pairStep [] with _ | m
    · rw [hf] at h; cases h
    · rw [hf] at h
      injection h with h
      subst h
      intro k hk
      rcases foldlM_pairStep_keys_sub hf k hk with hk1 | ⟨t, ht, c, hc, hck⟩
      · simp [keys] at hk1
      · exact ⟨c, splitWS_chars ht c hc, hck⟩

/-- A wiring string with a repeated destination letter fails the revMap key
count (or an earlier regex check). -/
theorem mkRotor_none_of_dup {w s rs ip : List Char} {i j : Nat}
    (hij : i < j) (hjw : j < w.length) (hdup : w.getD i ' ' = w.getD j ' ') :
    mkRotor w s rs ip = none := by
  unfold mkRotor
  by_cases h1 : w.length = 26 ∧ w.all isUpper = true
  swap
  · rw [if_neg h1]
  rw [if_pos h1]
  rw [mapM_a2i_of_all_upper h1.2, Option.some_bind]
  have hiw : i < w.length := by omega
  have hweq : w[i] = w[j] := by
    rw [List.getD_eq_getElem?_getD, List.getElem?_eq_getElem hiw] at hdup
    rw [List.getD_eq_getElem?_getD, List.getElem?_eq_getElem hjw] at hdup
    simpa using hdup
  have hnodup : ¬ (w.map (fun c => (c.toNat : Int) - 65)).Nodup := by
    intro hnd
    have hlm : i < (w.map (fun c => (c.toNat : Int) - 65)).length := by
      rw [List.length_map]; omega
    have hlm' : j < (w.map (fun c => (c.toNat : Int) - 65)).length := by
      rw [List.length_map]; omega
    have heq : (w.map (fun c => (c.toNat : Int) - 65))[i]
        = (w.map (fun c => (c.toNat : Int) - 65))[j] := by
      rw [List.getElem_map, List.getElem_map, hweq]
    have := (@List.Nodup.getElem_inj_iff _ _ hnd _ hlm _ hlm').1 heq
    omega
  by_cases h5 : (buildRevMap (w.map (fun c => (c.toNat : Int) - 65))).length = 26
  · exact absurd (nodup_of_buildRevMap_length
      (by rw [h5, List.length_map, h1.1])) hnodup
  · rw [if_neg h5]
    simp only [ite_self]

theorem contains_iff_mem {l : List Int} {x : Int} : l.contains x = true ↔ x ∈ l := by
  simp

/-! ## Concrete catalog components (rotors I, II, III and reflector B) -/

def rotorI : Rotor :=
  (mkRotor ("EKMFLGDQVZNTOWYHXUSPAIBRCJ".toList) ("R".toList)
    ("A".toList) ("A".toList)).getD ⟨[], [], [], 0⟩

def rotorII : Rotor :=
  (mkRotor ("AJDKSIRUXBLHWTMCQGZNPYFVOE".toList) ("F".toList)
    ("A".toList) ("A".toList)).getD ⟨[], [], [], 0⟩

def rotorIII : Rotor :=
  (mkRotor ("BDFHJLCPRTXVZNYEIWGAKMUSQO".toList) ("W".toList)
    ("A".toList) ("A".toList)).getD ⟨[], [], [], 0⟩

def reflectorB : PairMap :=
  (mkReflector ("AY BR CU DH EQ FS GL IP JX KN MO TZ VW".toList)).getD ⟨[]⟩

def emptyPlugboard : PairMap := (mkPlugboard ("".toList)).getD ⟨[]⟩

/-- The classic test machine: rotors I, II, III arranged left to right, so the
machine's rotor list (index 0 = rightmost) is III, II, I; reflector B; empty
plugboard; all rings and positions at `A`. -/
def enigmaC3 : EnigmaMachine := ⟨[rotorIII, rotorII, rotorI], reflectorB, emptyPlugboard⟩

theorem mkRotorI : mkRotor ("EKMFLGDQVZNTOWYHXUSPAIBRCJ".toList) ("R".toList)
    ("A".toList) ("A".toList) = some rotorI := rfl

theorem mkRotorII : mkRotor ("AJDKSIRUXBLHWTMCQGZNPYFVOE".toList) ("F".toList)
    ("A".toList) ("A".toList) = some rotorII := rfl

theorem mkRotorIII : mkRotor ("BDFHJLCPRTXVZNYEIWGAKMUSQO".toList) ("W".toList)
    ("A".toList) ("A".toList) = some rotorIII := rfl

theorem mkReflectorB : mkReflector ("AY BR CU DH EQ FS GL IP JX KN MO TZ VW".toList)
    = some reflectorB := rfl

theorem mkEmptyPlugboard : mkPlugboard ("".toList) = some emptyPlugboard := rfl

theorem validMachine_enigmaC3 : ValidMachine enigmaC3 := by
  refine ⟨?_, ⟨_, mkReflectorB⟩, ⟨_, mkEmptyPlugboard⟩, Or.inl rfl⟩
  intro r hr
  rcases List.mem_cons.1 hr with rfl | hr
  · exact ⟨_, _, _, _, mkRotorIII⟩
  rcases List.mem_cons.1 hr with rfl | hr
  · exact ⟨_, _, _, _, mkRotorII⟩
  rcases List.mem_cons.1 hr with rfl | hr
  · exact ⟨_, _, _, _, mkRotorI⟩
  · simp at hr

/-! ## The claims -/

/-- C1: Round-trip.  For every valid machine configuration and every input
string, encrypting with a machine freshly constructed from that configuration
and then running a second, freshly constructed machine from the same
configuration over the ciphertext reproduces the original letters exactly,
case-normalized to uppercase, with non-letter characters preserved verbatim.
Construction is a pure function, so two machines freshly constructed from the
same configuration are the same `EnigmaMachine` value `m`; `ValidMachine m`
says exactly that `m`'s components were produced by the constructors. -/
theorem C1_round_trip (m : EnigmaMachine) (hm : ValidMachine m) (input : List Char) :
    ∃ ct mA pt mB, crypt m input = some (ct, mA) ∧ crypt m ct = some (pt, mB) ∧
      pt = input.map upperNorm := by
  obtain ⟨ct, mA, h1, _, h3⟩ := crypt_round (validMachine_mInv hm) input
  exact ⟨ct, mA, input.map upperNorm, mA, h1, h3, rfl⟩

theorem C1_round_trip_witness :
    ∃ ct mA pt mB, crypt enigmaC3 ('H' :: 'i' :: '!' :: []) = some (ct, mA) ∧
      crypt enigmaC3 ct = some (pt, mB) ∧
      pt = ('H' :: 'i' :: '!' :: []).map upperNorm :=
  C1_round_trip enigmaC3 validMachine_enigmaC3 ('H' :: 'i' :: '!' :: [])

set_option maxRecDepth 8000 in
/-- C3: Known test vector.  A machine with rotors I, II, III (the machine's
rotor list, ordered rightmost first, is III, II, I) with their catalog notch
letters, reflector B, all ring settings `A`, all initial positions `A` and an
empty plugboard — all built by the constructors — encrypts `AAAAA` to exactly
`BDZGO`. -/
theorem C3_test_vector :
    mkRotor ("BDFHJLCPRTXVZNYEIWGAKMUSQO".toList) ("W".toList) ("A".toList) ("A".toList)
        = some rotorIII ∧
    mkRotor ("AJDKSIRUXBLHWTMCQGZNPYFVOE".toList) ("F".toList) ("A".toList) ("A".toList)
        = some rotorII ∧
    mkRotor ("EKMFLGDQVZNTOWYHXUSPAIBRCJ".toList) ("R".toList) ("A".toList) ("A".toList)
        = some rotorI ∧
    mkReflector ("AY BR CU DH EQ FS GL IP JX KN MO TZ VW".toList) = some reflectorB ∧
    mkPlugboard ("".toList) = some emptyPlugboard ∧
    mkEnigmaMachine [rotorIII, rotorII, rotorI] reflectorB emptyPlugboard
        = some enigmaC3 ∧
    (crypt enigmaC3 ("AAAAA".toList)).map Prod.fst = some ("BDZGO".toList) :=
  ⟨mkRotorIII, mkRotorII, mkRotorI, mkReflectorB, mkEmptyPlugboard, rfl, rfl⟩

/-- C4: Pair-substitution involution.  For every validly constructed
`Reflector` and letter index `c` in `0..25`, `transform` is an involution with
no fixed point; for every validly constructed `Plugboard`, `transform` is an
involution. -/
theorem C4_involution (sr sp : List Char) (refl plug : PairMap)
    (hr : mkReflector sr = some refl) (hp : mkPlugboard sp = some plug)
    (c : Int) (hc0 : 0 ≤ c) (hc1 : c < 26) :
    refl.transform (refl.transform c) = c ∧ refl.transform c ≠ c ∧
      plug.transform (plug.transform c) = c := by
  obtain ⟨hb, hlen⟩ := mkReflector_base hr
  have hri := mkPairMapBase_inv hb
  have hpi := mkPairMapBase_inv hp
  exact ⟨pairTransform_invol hri c, reflector_ne hri hlen hc0 hc1,
    pairTransform_invol hpi c⟩

theorem C4_involution_witness :
    reflectorB.transform (reflectorB.transform 0) = 0 ∧ reflectorB.transform 0 ≠ 0 ∧
      emptyPlugboard.transform (emptyPlugboard.transform 0) = 0 :=
  C4_involution _ _ reflectorB emptyPlugboard mkReflectorB mkEmptyPlugboard 0
    (by decide) (by decide)

/-- C5: Rotor transform.  For every validly constructed rotor at any position
`p` and every `c` in `0..25`, `transform` is
`mod(map[mod(c + pos, 26)] - pos, 26)`, `revTransform` has the identical shape
through the inverse permutation, and `revTransform (transform c) = c`. -/
theorem C5_rotor_transform (w s rs ip : List Char) (r : Rotor)
    (h : mkRotor w s rs ip = some r) (p c : Int) (hc0 : 0 ≤ c) (hc1 : c < 26) :
    ({ r with pos := p } : Rotor).transform c
        = jsmod (r.mapL.getD (jsmod (c + p) 26).toNat 0 - p) 26 ∧
    ({ r with pos := p } : Rotor).revTransform c
        = jsmod ((objGet r.revMap (jsmod (c + p) 26)).getD 0 - p) 26 ∧
    ({ r with pos := p } : Rotor).revTransform
        (({ r with pos := p } : Rotor).transform c) = c := by
  have h0 := mkRotor_inv h
  have hinv : RotorInv ({ r with pos := p } : Rotor) :=
    ⟨h0.len, h0.bounds, h0.nodup, h0.rev⟩
  exact ⟨rfl, rfl, rev_transform_eq hinv hc0 hc1⟩

theorem C5_rotor_transform_witness :
    ({ rotorI with pos := 7 } : Rotor).transform 3
        = jsmod (rotorI.mapL.getD (jsmod (3 + 7) 26).toNat 0 - 7) 26 ∧
    ({ rotorI with pos := 7 } : Rotor).revTransform 3
        = jsmod ((objGet rotorI.revMap (jsmod (3 + 7) 26)).getD 0 - 7) 26 ∧
    ({ rotorI with pos := 7 } : Rotor).revTransform
        (({ rotorI with pos := 7 } : Rotor).transform 3) = 3 :=
  C5_rotor_transform _ _ _ _ rotorI mkRotorI 7 3 (by decide) (by decide)

/-- C8: No runtime errors.  For every validly constructed machine and every
input string, `crypt` returns (no `i2a` throw is reachable) and the output has
the same length as the input. -/
theorem C8_no_runtime_errors (m : EnigmaMachine) (hm : ValidMachine m)
    (input : List Char) :
    ∃ out m', crypt m input = some (out, m') ∧ out.length = input.length := by
  obtain ⟨ct, m', h1, h2, _⟩ := crypt_round (validMachine_mInv hm) input
  exact ⟨ct, m', h1, h2⟩

theorem C8_no_runtime_errors_witness :
    ∃ out m', crypt enigmaC3 ('A' :: 'b' :: '?' :: '\t' :: []) = some (out, m') ∧
      out.length = ('A' :: 'b' :: '?' :: '\t' :: []).length :=
  C8_no_runtime_errors enigmaC3 validMachine_enigmaC3 ('A' :: 'b' :: '?' :: '\t' :: [])

/-- C9: No self-encryption (implicit).  For every valid machine in any
reachable rotor state (any positions) and every alphabetic input character,
the output letter differs from the uppercased input letter. -/
theorem C9_no_self_encryption (m : EnigmaMachine) (hm : ValidMachineState m)
    (c : Char) (hc : ¬ a2iPerm c = -1) :
    ∃ (out : Char) (m' : EnigmaMachine) (u : Char),
      crypt m (c :: []) = some (out :: [], m') ∧ i2a (a2iPerm c) = some u ∧
      out ≠ u := by
  have hmi := validMachineState_mInv hm
  obtain ⟨h0, h1⟩ := a2iPerm_bounds hc
  have hm1 : MInv m.step := mInv_step hmi
  have he := cryptLetter_bounds hm1 h0 h1
  have hne := cryptLetter_ne hm1 h0 h1
  refine ⟨Char.ofNat (cryptLetter m.step (a2iPerm c) + 65).toNat, m.step,
    Char.ofNat (a2iPerm c + 65).toNat, ?_, i2a_eq_some h0 h1, ?_⟩
  · rw [crypt_cons_letter hc, i2a_eq_some he.1 he.2, Option.some_bind, crypt_nil]
    rfl
  · intro heq
    have ht := congrArg Char.toNat heq
    rw [char_ofNat_toNat (by omega), char_ofNat_toNat (by omega)] at ht
    exact hne (by omega)

theorem C9_no_self_encryption_witness :
    ∃ (out : Char) (m' : EnigmaMachine) (u : Char),
      crypt enigmaC3 ('Q' :: []) = some (out :: [], m') ∧
      i2a (a2iPerm 'Q') = some u ∧ out ≠ u :=
  C9_no_self_encryption enigmaC3 (validMachine_state validMachine_enigmaC3) 'Q'
    (by decide)

/-- C2: Stepping algorithm.  On every call to `EnigmaMachine.step()`, rotor 0
always advances one position; rotor 1 advances iff rotor 0's new position is
in rotor 0's notch set or rotor 1's position advanced by one more step would
be in rotor 1's own notch set (the double-stepping anomaly); rotor 2 advances
(exactly once) iff rotor 1 advanced and its new position is in rotor 1's notch
set; the cascade goes no further — every rotor beyond index 2, in particular
an optional 4th rotor, is untouched. -/
theorem C2_stepping (m : EnigmaMachine) (r0 r1 r2 : Rotor) (rest : List Rotor)
    (h : m.rotors = r0 :: r1 :: r2 :: rest) :
    ∃ b1 b2 : Bool,
      m.step.rotors = stepRotor r0 :: cond b1 (stepRotor r1) r1
        :: cond b2 (stepRotor r2) r2 :: rest ∧
      (stepRotor r0).pos = jsmod (r0.pos + 1) 26 ∧
      (b1 = true ↔
        (jsmod (r0.pos + 1) 26 ∈ r0.steps ∨ jsmod (r1.pos + 1) 26 ∈ r1.steps)) ∧
      (b2 = true ↔ (b1 = true ∧ jsmod (r1.pos + 1) 26 ∈ r1.steps)) := by
  have hrs : m.step.rotors = stepRotors (r0 :: r1 :: r2 :: rest) := by
    show stepRotors m.rotors = _
    rw [h]
  by_cases c1 : ((stepRotor r0).steps.contains (stepRotor r0).pos
      || r1.steps.contains (jsmod (r1.pos + 1) 26)) = true
  · have hp1 : jsmod (r0.pos + 1) 26 ∈ r0.steps ∨ jsmod (r1.pos + 1) 26 ∈ r1.steps := by
      rw [Bool.or_eq_true] at c1
      rcases c1 with hx | hx
      · exact Or.inl (contains_iff_mem.1 hx)
      · exact Or.inr (contains_iff_mem.1 hx)
    by_cases c2 : ((stepRotor r1).steps.contains (stepRotor r1).pos) = true
    · have hp2 : jsmod (r1.pos + 1) 26 ∈ r1.steps := contains_iff_mem.1 c2
      refine ⟨true, true, ?_, rfl, ?_, ?_⟩
      · rw [hrs]
        simp only [stepRotors, if_pos c1, if_pos c2]
        rfl
      · exact iff_of_true rfl hp1
      · exact iff_of_true rfl ⟨rfl, hp2⟩
    · have hp2 : ¬ jsmod (r1.pos + 1) 26 ∈ r1.steps :=
        fun hmem => c2 (contains_iff_mem.2 hmem)
      refine ⟨true, false, ?_, rfl, ?_, ?_⟩
      · rw [hrs]
        simp only [stepRotors, if_pos c1, if_neg c2]
        rfl
      · exact iff_of_true rfl hp1
      · exact iff_of_false (by simp) (fun hc => hp2 hc.2)
  · have hp1 : ¬ (jsmod (r0.pos + 1) 26 ∈ r0.steps ∨ jsmod (r1.pos + 1) 26 ∈ r1.steps) := by
      intro hd
      apply c1
      rw [Bool.or_eq_true]
      rcases hd with hd | hd
      · exact Or.inl (contains_iff_mem.2 hd)
      · exact Or.inr (contains_iff_mem.2 hd)
    refine ⟨false, false, ?_, rfl, ?_, ?_⟩
    · rw [hrs]
      simp only [stepRotors, if_neg c1]
      rfl
    · exact iff_of_false (by simp) hp1
    · exact iff_of_false (by simp) (fun hc => by cases hc.1)

theorem C2_stepping_witness :
    ∃ b1 b2 : Bool,
      enigmaC3.step.rotors = stepRotor rotorIII :: cond b1 (stepRotor rotorII) rotorII
        :: cond b2 (stepRotor rotorI) rotorI :: [] ∧
      (stepRotor rotorIII).pos = jsmod (rotorIII.pos + 1) 26 ∧
      (b1 = true ↔
        (jsmod (rotorIII.pos + 1) 26 ∈ rotorIII.steps ∨
          jsmod (rotorII.pos + 1) 26 ∈ rotorII.steps)) ∧
      (b2 = true ↔ (b1 = true ∧ jsmod (rotorII.pos + 1) 26 ∈ rotorII.steps)) :=
  C2_stepping enigmaC3 rotorIII rotorII rotorI [] rfl

/-- C6: Non-letter passthrough and frame.  A character that is not a letter is
emitted unchanged at its position, `step()` is not called for it and the
machine state handed to the rest of the input is untouched; concretely, with
stripping disabled, `A1B` yields a 3-character output whose middle character
is `1`, and the final machine has stepped exactly twice (once for `A`, once
for `B`). -/
theorem C6_passthrough :
    (∀ (m : EnigmaMachine) (c : Char) (rest : List Char), a2iPerm c = -1 →
        crypt m (c :: rest) = (crypt m rest).bind fun om => some (c :: om.1, om.2)) ∧
    (∀ m : EnigmaMachine, ValidMachine m →
        ∃ x z m', crypt m ('A' :: '1' :: 'B' :: []) = some (x :: '1' :: z :: [], m') ∧
          m'.rotors = stepRotors (stepRotors m.rotors)) := by
  constructor
  · intro m c rest h
    exact crypt_cons_nonletter h rest
  · intro m hm
    have hmi := validMachine_mInv hm
    have hA : ¬ a2iPerm 'A' = -1 := by decide
    have h1 : a2iPerm '1' = -1 := by decide
    have hB : ¬ a2iPerm 'B' = -1 := by decide
    obtain ⟨ha0, ha1⟩ := a2iPerm_bounds hA
    have hm1 : MInv m.step := mInv_step hmi
    have he1 := cryptLetter_bounds hm1 ha0 ha1
    obtain ⟨hb0, hb1⟩ := a2iPerm_bounds hB
    have hm2 : MInv m.step.step := mInv_step hm1
    have he2 := cryptLetter_bounds hm2 hb0 hb1
    refine ⟨Char.ofNat (cryptLetter m.step (a2iPerm 'A') + 65).toNat,
      Char.ofNat (cryptLetter m.step.step (a2iPerm 'B') + 65).toNat, m.step.step, ?_, rfl⟩
    rw [crypt_cons_letter hA, i2a_eq_some he1.1 he1.2, Option.some_bind]
    rw [crypt_cons_nonletter h1]
    rw [crypt_cons_letter hB, i2a_eq_some he2.1 he2.2, Option.some_bind, crypt_nil]
    rfl

theorem C6_passthrough_witness :
    (crypt enigmaC3 ('%' :: []) = (crypt enigmaC3 []).bind fun om => some ('%' :: om.1, om.2)) ∧
    (∃ x z m', crypt enigmaC3 ('A' :: '1' :: 'B' :: []) = some (x :: '1' :: z :: [], m') ∧
      m'.rotors = stepRotors (stepRotors enigmaC3.rotors)) :=
  ⟨C6_passthrough.1 enigmaC3 '%' [] (by decide),
   C6_passthrough.2 enigmaC3 validMachine_enigmaC3⟩

/-- C7: Construction-time failure.  A wiring string with a repeated
destination letter, a plugboard where the same letter appears in two different
pairs, a reflector whose pairs cover fewer than all 26 letters, and a rotor
count other than 3 or 4 each make the corresponding constructor throw, so no
machine exists and no encryption output is produced. -/
theorem C7_construction_failures :
    (∀ (w s rs ip : List Char) (i j : Nat), i < j → j < w.length →
        w.getD i ' ' = w.getD j ' ' → mkRotor w s rs ip = none) ∧
    (∀ (s : List Char) (l1 : List (List Char)) (t1 : List Char)
        (l2 : List (List Char)) (t2 : List Char) (l3 : List (List Char)) (x : Char),
        splitWS s = l1 ++ t1 :: (l2 ++ t2 :: l3) → x ∈ t1 → x ∈ t2 →
        mkPlugboard s = none) ∧
    (∀ s : List Char, ((s.filterMap a2i).toFinset).card < 26 →
        mkReflector s = none) ∧
    (∀ (rotors : List Rotor) (refl plug : PairMap), rotors.length ≠ 3 →
        rotors.length ≠ 4 → mkEnigmaMachine rotors refl plug = none) := by
  refine ⟨?_, ?_, ?_, ?_⟩
  · intro w s rs ip i j hij hjw hdup
    exact mkRotor_none_of_dup hij hjw hdup
  · intro s l1 t1 l2 t2 l3 x heq hx1 hx2
    by_cases hs : s = []
    · subst hs
      rw [splitWS_nil] at heq
      have hlen := congrArg List.length heq
      simp only [List.length_append, List.length_cons] at hlen
      simp only [List.length_cons, List.length_nil] at hlen
      omega
    · show mkPairMapBase s = none
      unfold mkPairMapBase
      rw [if_neg hs, heq, foldlM_pairStep_shared hx1 hx2]
      rfl
  · intro s hcard
    unfold mkReflector
    rcases hb : mkPairMapBase s with _ | p
    · rfl
    · rw [Option.some_bind]
      have hinv := mkPairMapBase_inv hb
      have hsub : (keys p.map).toFinset ⊆ (s.filterMap a2i).toFinset := by
        intro k hk
        obtain ⟨c, hc, hck⟩ := mkPairMapBase_keys_sub hb k (List.mem_toFinset.1 hk)
        rw [List.mem_toFinset]
        exact List.mem_filterMap.2 ⟨c, hc, hck⟩
      have hle : (keys p.map).toFinset.card ≤ (s.filterMap a2i).toFinset.card :=
        Finset.card_le_card hsub
      rw [List.toFinset_card_of_nodup hinv.1, length_keys] at hle
      rw [if_neg (by omega)]
  · intro rotors refl plug h3 h4
    unfold mkEnigmaMachine
    rw [if_neg (fun hor => hor.elim h3 h4)]

theorem C7_construction_failures_witness :
    mkRotor ("AAMFLGDQVZNTOWYHXUSPAIBRCJ".toList) [] ('A' :: []) ('A' :: []) = none ∧
    mkPlugboard ("AB BC".toList) = none ∧
    mkReflector ("AY BR".toList) = none ∧
    mkEnigmaMachine [] reflectorB emptyPlugboard = none :=
  ⟨C7_construction_failures.1 ("AAMFLGDQVZNTOWYHXUSPAIBRCJ".toList) [] ('A' :: [])
      ('A' :: []) 0 1 (by decide) (by decide) (by decide),
   C7_construction_failures.2.1 ("AB BC".toList) [] ('A' :: 'B' :: []) []
      ('B' :: 'C' :: []) [] 'B' (by decide) (by decide) (by decide),
   C7_construction_failures.2.2.1 ("AY BR".toList) (by decide),
   C7_construction_failures.2.2.2 [] reflectorB emptyPlugboard (by decide) (by decide)⟩

/-- C10 (counterexample): constructing a Reflector from the exactly-empty
string does not succeed — the pair-parsing stage accepts it with no pairs,
but the Reflector's 26-letter coverage check then throws — contradicting the
claim that a Reflector built from the empty string succeeds. -/
theorem C10_counterexample : mkReflector ("".toList) = none := rfl

/-- C10 (amended): constructing a Plugboard from the exactly-empty string
succeeds with no pairs (a Reflector from the empty string instead fails its
coverage check); any pair string that is non-empty yet consists only of
whitespace, or that has leading or trailing whitespace, raises a configuration
error for Plugboard and Reflector alike, because splitting on whitespace then
yields an empty token that fails the two-uppercase-letter check. -/
theorem C10_whitespace (s : List Char) :
    mkPlugboard ("".toList) = some ⟨[]⟩ ∧
    mkReflector ("".toList) = none ∧
    (s ≠ [] → s.all isWS = true →
      mkPlugboard s = none ∧ mkReflector s = none) ∧
    (s ≠ [] → (isWS (s.headD 'A') = true ∨ isWS (s.getLastD 'A') = true) →
      mkPlugboard s = none ∧ mkReflector s = none) := by
  have main : ∀ s' : List Char, s' ≠ [] →
      (isWS (s'.headD 'A') = true ∨ isWS (s'.getLastD 'A') = true) →
      mkPlugboard s' = none ∧ mkReflector s' = none := by
    intro s' hs hw
    have hbase : mkPairMapBase s' = none := by
      apply mkPairMapBase_none_of_empty_token hs
      rcases hw with hw | hw
      · exact mem_of_headD_nil (splitWS_ne_nil s') (splitWS_headD hs hw)
      · exact mem_of_getLastD_nil (splitWS_ne_nil s') (splitWS_getLastD hs hw)
    refine ⟨hbase, ?_⟩
    unfold mkReflector
    rw [hbase]
    rfl
  refine ⟨rfl, rfl, ?_, main s⟩
  intro hs hall
  apply main s hs
  left
  rcases s with _ | ⟨c, rest⟩
  · exact absurd rfl hs
  · rw [List.headD_cons]
    exact List.all_eq_true.1 hall c (List.mem_cons_self c rest)

theorem C10_whitespace_witness :
    mkPlugboard (' ' :: []) = none ∧ mkReflector (' ' :: []) = none :=
  (C10_whitespace (' ' :: [])).2.2.1 (by decide) (by decide)

end Enigma
